import Mathlib

/-!
Verification of the graph construction, validation and scheduling engine of
`chemml/wrapper/engine.py`.

Python dictionaries are modelled as association lists (`List (key × value)`)
whose entries are kept in insertion order; dictionary lookup is first-match
lookup, which coincides with Python semantics because Python dictionaries have
unique keys (theorems that depend on key uniqueness carry a `Nodup`
hypothesis).  Python values occurring in the workflow documents are modelled by
the inductive type `PyVal`, and Python exceptions by `PyErr`; functions that
can raise return `Except PyErr`.  `while` loops are modelled with an explicit
fuel parameter; a fuel bound large enough to simulate every terminating Python
run is supplied, and fuel exhaustion models divergence of the Python loop.
-/

namespace ChemEngine

/-- First-match association-list lookup, the model of Python dict access. -/
def dlookup {α β : Type} [DecidableEq α] : List (α × β) → α → Option β
  | [], _ => Option.none
  | (k, v) :: t, a => if k = a then Option.some v else dlookup t a

/-- Occurrence count of `a` in a list (multiplicity). -/
def countOcc {α : Type} [DecidableEq α] (a : α) : List α → Nat
  | [] => 0
  | b :: t => (if b = a then 1 else 0) + countOcc a t

section CycleDetect

variable {V : Type} [DecidableEq V]

/-- The keys of the adjacency dictionary: `iter(graph)` in the source. -/
def gkeys (g : List (V × List V)) : List V := g.map Prod.fst

/-- `graph.get(v, ())` in `cycle_in_graph`. -/
def adj (g : List (V × List V)) (v : V) : List V := (dlookup g v).getD []

/-- `u → v` is an edge of the forward adjacency map `g`. -/
def edge (g : List (V × List V)) (u v : V) : Prop := v ∈ adj g u

instance edgeDecidable (g : List (V × List V)) (u v : V) : Decidable (edge g u v) := by
  unfold edge
  infer_instance

/-- The inner state of `cycle_in_graph`'s loop.  The Python code keeps a stack
of iterators paired (except for the bottom `iter(graph)` entry) with the
vertices of `path`; we keep the pairing explicit: `frames` is the list of
(path vertex, remaining neighbours of that vertex) pairs, innermost first, and
`root` is the remaining part of the bottom iterator over the keys.  `path` in
the source is `frames.map Prod.fst` plus the sentinel `object()`, which no
vertex can equal, so the sentinel is dropped.  One fuel unit is spent per
iteration of the inner `for`; `none` means the fuel ran out. -/
def dfsRun (g : List (V × List V)) :
    Nat → List V → List (V × List V) → List V → Option Bool
  | 0, _, _, _ => Option.none
  | _ + 1, _, [], [] => Option.some false
  | fuel + 1, visited, [], v :: vs =>
      if v ∈ visited then dfsRun g fuel visited [] vs
      else dfsRun g fuel (v :: visited) [(v, adj g v)] vs
  | fuel + 1, visited, (_, []) :: rest, root => dfsRun g fuel visited rest root
  | fuel + 1, visited, (u, w :: ws) :: rest, root =>
      if w ∈ u :: rest.map Prod.fst then Option.some true
      else if w ∈ visited then dfsRun g fuel visited ((u, ws) :: rest) root
      else dfsRun g fuel (w :: visited) ((w, adj g w) :: (u, ws) :: rest) root

/-- Every vertex mentioned by the graph: keys plus all neighbour-list members. -/
def univList (g : List (V × List V)) : List V := g.map Prod.fst ++ (g.map Prod.snd).flatten

/-- An upper bound on the length of any adjacency list of `g`. -/
def maxAdj (g : List (V × List V)) : Nat := (g.map (fun p => p.2.length)).foldr max 0

/-- Weight of the frame stack: one per frame plus the pending neighbours. -/
def framesWeight (frames : List (V × List V)) : Nat :=
  (frames.map (fun p => 1 + p.2.length)).sum

/-- Termination measure for `dfsRun`: it strictly decreases at each step. -/
def dfsMeasure (g : List (V × List V)) (visited : List V) (frames : List (V × List V))
    (root : List V) : Nat :=
  ((univList g).toFinset \ visited.toFinset).card * (maxAdj g + 2) +
    framesWeight frames + root.length

/-- A fuel budget sufficient for `dfsRun` to terminate from the initial state. -/
def fuelBound (g : List (V × List V)) : Nat :=
  (univList g).toFinset.card * (maxAdj g + 2) + (gkeys g).length + 1

/-- `cycle_in_graph(graph)` from the source: iterative depth-first search with
an explicit path stack, returning whether a directed cycle was found. -/
def cycle_in_graph (g : List (V × List V)) : Bool :=
  (dfsRun g (fuelBound g) [] [] (gkeys g)).getD false

/-- The graph has a directed cycle: some vertex reaches itself in ≥ 1 step. -/
def hasCycle (g : List (V × List V)) : Prop :=
  ∃ v, Relation.TransGen (edge g) v v

/-- Frame-stack invariant of the DFS: each frame `(u, rem)` holds a suffix
`rem` of `adj g u`; the consumed prefix consists of visited vertices that are
not on the path from `u` downward. -/
def framesOK (g : List (V × List V)) (visited : List V) : List (V × List V) → Prop
  | [] => True
  | (u, rem) :: rest =>
      (∃ pre, adj g u = pre ++ rem ∧ ∀ x ∈ pre, x ∈ visited ∧ x ∉ u :: rest.map Prod.fst) ∧
      framesOK g visited rest

/-- The full loop invariant of `cycle_in_graph`:
the keys are `pre ++ root` with `pre` visited; the frames are well-formed;
the path is an edge chain of visited, pairwise distinct vertices; and the
finished vertices (visited, off path) are successor-closed and lie on no
directed cycle. -/
def Inv (g : List (V × List V)) (visited : List V) (frames : List (V × List V))
    (root : List V) : Prop :=
  (∃ pre, gkeys g = pre ++ root ∧ ∀ x ∈ pre, x ∈ visited) ∧
  framesOK g visited frames ∧
  List.Chain' (fun a b => edge g b a) (frames.map Prod.fst) ∧
  (∀ p ∈ frames.map Prod.fst, p ∈ visited) ∧
  (frames.map Prod.fst).Nodup ∧
  (∀ x ∈ visited, x ∉ frames.map Prod.fst → ∀ w, edge g x w →
    w ∈ visited ∧ w ∉ frames.map Prod.fst) ∧
  (∀ x ∈ visited, x ∉ frames.map Prod.fst → ¬ Relation.TransGen (edge g) x x)

end CycleDetect

/-! ## The Python value and exception model used by `Parser` -/

/-- Python values that can occur inside a workflow document's `inputs`,
`outputs`, `wrapper_io` and `method` dictionaries. -/
inductive PyVal where
  | vstr (s : String)
  | vbool (b : Bool)
  | vint (n : Int)
  | vnone
deriving DecidableEq

/-- Python exceptions raised by the engine. `diverge` is the model artifact
standing for a Python loop that never terminates (no exception is raised and
no value is ever returned). -/
inductive PyErr where
  | valueError (msg : String)
  | indexError
  | keyError
  | diverge
deriving DecidableEq

/-- `str.split('@')` on a character list, Python semantics (keeps empty
parts, always returns at least one part). -/
def pySplitAmp : List Char → List (List Char)
  | [] => [[]]
  | c :: rest =>
      let ps := pySplitAmp rest
      if c = '@' then [] :: ps else (c :: ps.headD []) :: ps.tail

/-- `str.strip()` on a character list: drop whitespace from both ends. -/
def pyStrip (l : List Char) : List Char :=
  ((l.dropWhile Char.isWhitespace).reverse.dropWhile Char.isWhitespace).reverse

/-- The reference test repeated at the three `recv` sites of
`Parser.serialize`:
`isinstance(val, str) and val[0] == '@' and val.count('@') == 2`, followed by
`temp = val.strip().split('@')` and the recv pair `(temp[1], temp[2])`.
`val[0]` on the empty string raises `IndexError`.  The result is
`some (producerId, variableName)` for a reference, `none` for a literal. -/
def refTest : PyVal → Except PyErr (Option (String × String))
  | .vstr s =>
      match s.data with
      | [] => .error .indexError
      | c :: _ =>
          if c = '@' ∧ s.data.count '@' = 2 then
            let parts := pySplitAmp (pyStrip s.data)
            .ok (Option.some (String.mk (parts.getD 1 []), String.mk (parts.getD 2 [])))
          else .ok Option.none
  | _ => .ok Option.none

/-- The `method` sub-dictionary of a node: `{name, inputs, outputs}`.
`hasMName` records whether the `name` key is present (it is read only by the
pretty-printer, which raises `KeyError` when it is missing). -/
structure MethodB where
  hasMName : Bool
  minputs : Option (List (String × PyVal))
  moutputs : Option (List (String × PyVal))
deriving DecidableEq

/-- A workflow node (one block of the input json).  `hasName`, `hasLibrary`
record presence of the mandatory `name`/`library` keys and `keysOK` whether
the key set is a subset of the allowed keys, exactly what `validate_keys`
inspects; the values of `name`/`library` are never used by the engine. -/
structure NodeB where
  hasName : Bool
  hasLibrary : Bool
  keysOK : Bool
  inputs : Option (List (String × PyVal))
  outputs : Option (List (String × PyVal))
  wrapper_io : Option (List (String × PyVal))
  method : Option MethodB
deriving DecidableEq

/-- The per-node send/receive record built by `Parser.serialize`. -/
structure SendRecv where
  send : List String
  recv : List (String × String)
deriving DecidableEq

/-- `Parser.validate_keys`, including its three error messages. -/
def validateKeys (id : String) (nb : NodeB) : Except PyErr Unit :=
  if ¬ nb.hasName then
    .error (.valueError ("The input json is not valid. @node ID#" ++ id ++
      ": name of class/function is missing."))
  else if ¬ nb.hasLibrary then
    .error (.valueError ("The input json is not valid. @node ID#" ++ id ++
      ": name of library is missing"))
  else if ¬ nb.keysOK then
    .error (.valueError ("The input json is not valid. @node ID#" ++ id ++
      ": redundant or irrelevant keys"))
  else .ok ()

/-- The `inputs` / `method.inputs` scan: collect recv pairs in order. -/
def recvsOf : List (String × PyVal) → Except PyErr (List (String × String))
  | [] => .ok []
  | (_, v) :: t => do
      let r ← refTest v
      let rest ← recvsOf t
      match r with
      | Option.some pr => .ok (pr :: rest)
      | Option.none => .ok rest

/-- The `outputs` / `method.outputs` scan: variables whose value is the
boolean `True` are declared as sent. -/
def sendsOf : List (String × PyVal) → List String
  | [] => []
  | (k, v) :: t => if v = PyVal.vbool true then k :: sendsOf t else sendsOf t

/-- The `wrapper_io` scan: a reference string adds a recv, otherwise a boolean
`True` adds a send. -/
def wioOf : List (String × PyVal) → Except PyErr (List (String × String) × List String)
  | [] => .ok ([], [])
  | (k, v) :: t => do
      let r ← refTest v
      let (rs, ss) ← wioOf t
      match r with
      | Option.some pr => .ok (pr :: rs, ss)
      | Option.none => if v = PyVal.vbool true then .ok (rs, k :: ss) else .ok (rs, ss)

/-- One iteration of the node loop of `Parser.serialize`: validate the node's
keys, then scan `inputs`, `outputs`, `wrapper_io` and `method` in source
order, producing the node's `{send, recv}` record. -/
def extractNode (id : String) (nb : NodeB) : Except PyErr SendRecv := do
  validateKeys id nb
  let r1 ← recvsOf (nb.inputs.getD [])
  let s1 := sendsOf (nb.outputs.getD [])
  let p2 ← wioOf (nb.wrapper_io.getD [])
  let p3 ← match nb.method with
    | Option.none => pure (([] : List (String × String)), ([] : List String))
    | Option.some m => do
        let r3 ← recvsOf (m.minputs.getD [])
        pure (r3, sendsOf (m.moutputs.getD []))
  .ok ⟨s1 ++ p2.2 ++ p3.2, r1 ++ p2.1 ++ p3.1⟩

/-- The whole node loop: build `send_recv` in document order. -/
def extract : List (String × NodeB) → Except PyErr (List (String × SendRecv))
  | [] => .ok []
  | (id, nb) :: t => do
      let sr ← extractNode id nb
      let rest ← extract t
      .ok ((id, sr) :: rest)

/-- `all_sent`: every `(id, token)` with `token` in node `id`'s send list,
in iteration order and with multiplicity. -/
def allSent (sr : List (String × SendRecv)) : List (String × String) :=
  (sr.map (fun p => p.2.send.map (fun tok => (p.1, tok)))).flatten

/-- `all_received`: the concatenation of all recv lists, in iteration order. -/
def allReceived (sr : List (String × SendRecv)) : List (String × String) :=
  (sr.map (fun p => p.2.recv)).flatten

/-- `redundant`: the sent pairs no recv reference targets. -/
def redundantOf (sr : List (String × SendRecv)) : List (String × String) :=
  (allSent sr).filter (fun p => decide (p ∉ allReceived sr))

/-- `d[var] = False` for an existing key `var` (Python leaves the dictionary
unchanged when the key is absent, because the assignment is guarded by
`if var in d`). -/
def setKeyFalse : List (String × PyVal) → String → List (String × PyVal)
  | [], _ => []
  | (k, v) :: t, var =>
      if k = var then (k, PyVal.vbool false) :: t else (k, v) :: setKeyFalse t var

/-- Turning one redundant send off inside one node's `outputs`,
`method.outputs` and `wrapper_io` dictionaries. -/
def pruneNode (nb : NodeB) (var : String) : NodeB :=
  { nb with
    outputs := nb.outputs.map (fun m => setKeyFalse m var)
    method := nb.method.map (fun mb =>
      { mb with moutputs := mb.moutputs.map (fun m => setKeyFalse m var) })
    wrapper_io := nb.wrapper_io.map (fun m => setKeyFalse m var) }

/-- Apply `pruneNode` to the node `id` of the document. -/
def updateDoc : List (String × NodeB) → String → String → List (String × NodeB)
  | [], _, _ => []
  | (k, nb) :: t, id, var =>
      if k = id then (k, pruneNode nb var) :: t else (k, nb) :: updateDoc t id var

/-- `send_recv[id]['send'].remove(var)`: drop the first occurrence of `var`
from the send list of node `id`. -/
def eraseFirst : List String → String → List String
  | [], _ => []
  | x :: t, var => if x = var then t else x :: eraseFirst t var

/-- Apply the send-list removal to the node `id` of `send_recv`. -/
def updateSR : List (String × SendRecv) → String → String → List (String × SendRecv)
  | [], _, _ => []
  | (k, s) :: t, id, var =>
      if k = id then (k, ⟨eraseFirst s.send var, s.recv⟩) :: t
      else (k, s) :: updateSR t id var

/-- The document side of the redundancy pass: process every redundant pair. -/
def pruneDocAll : List (String × NodeB) → List (String × String) → List (String × NodeB)
  | doc, [] => doc
  | doc, (id, var) :: t => pruneDocAll (updateDoc doc id var) t

/-- The `send_recv` side of the redundancy pass. -/
def pruneSRAll : List (String × SendRecv) → List (String × String) → List (String × SendRecv)
  | sr, [] => sr
  | sr, (id, var) :: t => pruneSRAll (updateSR sr id var) t

/-- The whole redundancy (dead-output pruning) pass of `Parser.serialize`:
the loop `for item in redundant` updates `send_recv` and the document. -/
def pruneApply (doc : List (String × NodeB)) (sr : List (String × SendRecv))
    (red : List (String × String)) : List (String × NodeB) × List (String × SendRecv) :=
  (pruneDocAll doc red, pruneSRAll sr red)

/-- The extraction plus pruning prefix of `Parser.serialize`, returning the
(possibly mutated) document: "the pruning pass" of the specification. -/
def pruneOnce (doc : List (String × NodeB)) : Except PyErr (List (String × NodeB)) :=
  (extract doc).map (fun sr => (pruneApply doc sr (redundantOf sr)).1)

/-- The error message of `Parser.make_graph` (with the source's typo). -/
def brokenPipeMsg : String :=
  "The input is not valid. Ther is a broken pipe in the graph construction."

/-- The error condition of `Parser.make_graph` for one recv reference
`r = (producerId, variableName)`:
`ref = send_recv.get(producerId, {})` has no `send` key (the producer does not
exist) or `variableName` is not in `ref['send']`. -/
def badRefB (sr : List (String × SendRecv)) (r : String × String) : Bool :=
  match dlookup sr r.1 with
  | Option.none => true
  | Option.some s => decide (r.2 ∉ s.send)

/-- `{id: [] for id in send_recv}`. -/
def initAdj (sr : List (String × SendRecv)) : List (String × List String) :=
  sr.map (fun p => (p.1, []))

/-- `graph_send[id].append(x)` (the key is always present when called). -/
def bump : List (String × List String) → String → String → List (String × List String)
  | [], _, _ => []
  | (k, l) :: t, id, x =>
      if k = id then (k, l ++ [x]) :: t else (k, l) :: bump t id x

/-- The inner loop of `Parser.make_graph` over one node's recv list: validate
each reference and append the edge to the three graph representations. -/
def procRecvs (sr : List (String × SendRecv)) (nid : String) :
    List (String × String) →
    List (String × String) × List (String × List String) × List (String × List String) →
    Except PyErr (List (String × String) × List (String × List String) × List (String × List String))
  | [], acc => .ok acc
  | (p, v) :: t, acc =>
      match dlookup sr p with
      | Option.none => .error (.valueError brokenPipeMsg)
      | Option.some s =>
          if v ∈ s.send then
            procRecvs sr nid t
              (acc.1 ++ [(p, nid)], bump acc.2.1 p nid, bump acc.2.2 nid p)
          else .error (.valueError brokenPipeMsg)

/-- The outer loop of `Parser.make_graph` over the nodes. -/
def makeGraphLoop (sr : List (String × SendRecv)) :
    List (String × SendRecv) →
    List (String × String) × List (String × List String) × List (String × List String) →
    Except PyErr (List (String × String) × List (String × List String) × List (String × List String))
  | [], acc => .ok acc
  | (nid, s) :: t, acc => do
      let acc' ← procRecvs sr nid s.recv acc
      makeGraphLoop sr t acc'

/-- `Parser.make_graph`: returns `(graph, graph_send, graph_recv)` — the edge
list and the forward and reverse adjacency maps — or raises the broken-pipe
`ValueError`. -/
def make_graph (sr : List (String × SendRecv)) :
    Except PyErr (List (String × String) × List (String × List String) × List (String × List String)) :=
  makeGraphLoop sr sr ([], initAdj sr, initAdj sr)

/-- The edge list that `make_graph` produces when every reference validates:
one `(producer, consumer)` pair per recv reference, in iteration order. -/
def edgesOf (sr : List (String × SendRecv)) : List (String × String) :=
  (sr.map (fun q => q.2.recv.map (fun r => (r.1, q.1)))).flatten

/-- The `start_nodes` scan of `Parser.hierarchicy`: note the `elif` — a node
with an empty forward adjacency goes to `end_nodes` and is never considered
for `start_nodes`, even when its reverse adjacency is empty too. -/
def startNodes (gr : List (String × List String)) : List (String × List String) → List String
  | [] => []
  | (id, a) :: t =>
      if a = [] then startNodes gr t
      else if adj gr id = [] then id :: startNodes gr t
      else startNodes gr t

/-- The `end_nodes` scan of `Parser.hierarchicy`. -/
def endNodes : List (String × List String) → List String
  | [] => []
  | (id, a) :: t => if a = [] then id :: endNodes t else endNodes t

/-- One `next_layer` computation: the not-yet-collected nodes all of whose
senders have been collected, in `graph_recv` iteration order. -/
def nextLayer (gr : List (String × List String)) (coll : List String) : List String :=
  (gr.filter (fun p => decide (p.1 ∉ coll) && decide (∀ x ∈ p.2, x ∈ coll))).map Prod.fst

/-- The `while len(collected) < len(graph_send)` loop of `Parser.hierarchicy`,
with fuel; running out of fuel models the Python loop never terminating
(which happens exactly when some round makes no progress). -/
def hierLoop (gr : List (String × List String)) (total : Nat) :
    Nat → List (List String) → List String → Except String (List (List String))
  | 0, _, _ => .error "nontermination"
  | fuel + 1, layers, coll =>
      if coll.length < total then
        hierLoop gr total fuel (layers ++ [nextLayer gr coll]) (coll ++ nextLayer gr coll)
      else .ok layers

/-- `set(a) == set(b)` for lists. -/
def sameSetB (a b : List String) : Bool :=
  a.all (fun x => decide (x ∈ b)) && b.all (fun x => decide (x ∈ a))

/-- `Parser.hierarchicy`: split nodes into `start_nodes`/`end_nodes`, grow the
layers until every node is collected, then require the last layer to equal the
sink set. -/
def hierarchicy (gs gr : List (String × List String)) : Except String (List (List String)) :=
  match hierLoop gr gs.length (gs.length + 1) [startNodes gr gs] (startNodes gr gs) with
  | .error e => .error e
  | .ok layers =>
      if sameSetB (endNodes gs) (layers.getLastD []) then .ok layers
      else .error "The input graph is not constructed properly."

/-- Layering invariant for `hierLoop`: relative to the already placed prefix
`prev`, each successive layer holds pairwise-distinct keys, not placed before,
all of whose senders (reverse adjacency) were placed strictly earlier. -/
def layersOK (gr : List (String × List String)) (ks : List String) :
    List String → List (List String) → Prop
  | _, [] => True
  | prev, l :: rest =>
      l.Nodup ∧ (∀ v ∈ l, v ∉ prev ∧ (∀ x ∈ adj gr v, x ∈ prev) ∧ v ∈ ks) ∧
      layersOK gr ks (prev ++ l) rest

/-- The observable part of `Parser.prettyprinter`: it walks the layered nodes
in order and reads `block['method']['name']` for each node that has a
`method`, raising `KeyError` when the node or the method name is missing. -/
def prettyCheckIds (doc : List (String × NodeB)) : List String → Except PyErr Unit
  | [] => .ok ()
  | id :: t =>
      match dlookup doc id with
      | Option.none => .error .keyError
      | Option.some nb =>
          match nb.method with
          | Option.none => prettyCheckIds doc t
          | Option.some m => if m.hasMName then prettyCheckIds doc t else .error .keyError

/-- `Parser.serialize` on the `nodes` dictionary of the input document:
extraction, dead-output pruning, graph construction, cycle check, layering and
the pretty-printer pass, returning the mutated document together with
`(send_recv, all_received, graph, graph_send, graph_recv, layers)`. -/
def serialize (doc : List (String × NodeB)) :
    Except PyErr (List (String × NodeB) × List (String × SendRecv) ×
      List (String × String) × List (String × String) ×
      List (String × List String) × List (String × List String) × List (List String)) := do
  let sr ← extract doc
  let ar := allReceived sr
  let pruned := pruneApply doc sr (redundantOf sr)
  let g ← make_graph pruned.2
  if cycle_in_graph g.2.1 then
    .error (.valueError
      "The input graph is constructed of cycles that is not allowed due to the interdependency.")
  else do
    let layers ← match hierarchicy g.2.1 g.2.2 with
      | .error e =>
          if e = "nontermination" then Except.error PyErr.diverge
          else Except.error (PyErr.valueError e)
      | .ok ls => pure ls
    prettyCheckIds pruned.1 layers.flatten
    .ok (pruned.1, pruned.2, ar, g.1, g.2.1, g.2.2, layers)

/-- The data exchange.  In the source, `Stack.push` and `Stack.pull` have
`pass` bodies: they mutate nothing and return `None`. -/
structure Stack where
  stack : List ((String × String) × PyVal)
deriving DecidableEq

/-- `Stack.push(token, value)`: the body is `pass`, so the state is unchanged
and `None` is returned. -/
def Stack.push (st : Stack) (_token : String × String) (_value : PyVal) : Stack × PyVal :=
  (st, PyVal.vnone)

/-- `Stack.pull(token)`: the body is `pass`, so the state is unchanged and
`None` is returned. -/
def Stack.pull (st : Stack) (_token : String × String) : Stack × PyVal :=
  (st, PyVal.vnone)

/-- The send list of node `p` in a send/recv structure (empty when the node
is absent). -/
def srSend (sr : List (String × SendRecv)) (p : String) : List String :=
  match dlookup sr p with
  | Option.none => []
  | Option.some s => s.send

/-- The variable names of the redundant items that target node `p`, in
processing order. -/
def prunesFor (p : String) (red : List (String × String)) : List String :=
  (red.filter (fun r => decide (r.1 = p))).map Prod.snd

/-- Apply `pruneNode` for a sequence of variable names in order. -/
def applyPrunes (nb : NodeB) : List String → NodeB
  | [] => nb
  | v :: t => applyPrunes (pruneNode nb v) t

/-- In an optional dictionary, the key `v` (when present) maps to the boolean
`False`. -/
def mapFalseAt (m : Option (List (String × PyVal))) (v : String) : Prop :=
  ∀ l, m = Option.some l → v ∈ l.map Prod.fst → dlookup l v = Option.some (PyVal.vbool false)

/-- All three output dictionaries of a node map the key `v` (when present) to
the boolean `False`. -/
def docEntryFalse (nb : NodeB) (v : String) : Prop :=
  mapFalseAt nb.outputs v ∧ mapFalseAt (nb.method.bind MethodB.moutputs) v ∧
    mapFalseAt nb.wrapper_io v

/-- Whether some value of the node's `inputs`, `wrapper_io` or
`method.inputs` dictionaries — the three places where the reference test runs
— is the empty string. -/
def hasEmptyStrValB (nb : NodeB) : Bool :=
  decide (PyVal.vstr "" ∈ (nb.inputs.getD []).map Prod.snd) ||
  decide (PyVal.vstr "" ∈ (nb.wrapper_io.getD []).map Prod.snd) ||
  (match nb.method with
   | Option.none => false
   | Option.some m => decide (PyVal.vstr "" ∈ (m.minputs.getD []).map Prod.snd))

/-- A two-node example document: `P` sends `w` (received by `Q` through the
reference string in its `wrapper_io`), and `Q` declares the never-received
output `u` while its `wrapper_io` stores the reference under the same key
`u`. -/
def pruneFrameDoc : List (String × NodeB) :=
  [("P", ⟨true, true, true, Option.none,
    Option.some [("w", PyVal.vbool true)], Option.none, Option.none⟩),
   ("Q", ⟨true, true, true, Option.none,
    Option.some [("u", PyVal.vbool true)],
    Option.some [("u", PyVal.vstr "@P@w")], Option.none⟩)]

/-- The send/recv structure that `extract` produces for `pruneFrameDoc`. -/
def pruneFrameSR : List (String × SendRecv) :=
  [("P", ⟨["w"], []⟩), ("Q", ⟨["u"], [("P", "w")]⟩)]

/-- Spec-side reference criterion (from the specification's words): a value is
a reference iff it is a string, its first character is `@`, and it contains
exactly two `@` characters. -/
def specIsRefB : PyVal → Bool
  | .vstr s => decide (s.data.headD ' ' = '@') && decide (s.data ≠ []) &&
      decide (s.data.count '@' = 2)
  | _ => false

end ChemEngine

deriving instance DecidableEq for Except

namespace ChemEngine

/-! ## Basic lemmas about the association-list model -/

theorem dlookup_mem {α β : Type} [DecidableEq α] {l : List (α × β)} {a : α} {b : β}
    (h : dlookup l a = Option.some b) : (a, b) ∈ l := by
  induction l with
  | nil => simp [dlookup] at h
  | cons p t ih =>
      obtain ⟨k, v⟩ := p
      by_cases hk : k = a
      · subst hk
        simp [dlookup] at h
        simp [h]
      · simp only [dlookup, if_neg hk] at h
        exact List.mem_cons_of_mem _ (ih h)

theorem countOcc_append {α : Type} [DecidableEq α] (a : α) (l l' : List α) :
    countOcc a (l ++ l') = countOcc a l + countOcc a l' := by
  induction l with
  | nil => simp [countOcc]
  | cons b t ih => simp [countOcc, ih]; omega

theorem countOcc_pos_iff {α : Type} [DecidableEq α] {a : α} {l : List α} :
    0 < countOcc a l ↔ a ∈ l := by
  induction l with
  | nil => simp [countOcc]
  | cons b t ih =>
      by_cases hb : b = a
      · subst hb
        simp [countOcc]
      · simp [countOcc, hb, ih, Ne.symm hb]

theorem countOcc_eq_zero {α : Type} [DecidableEq α] {a : α} {l : List α} :
    countOcc a l = 0 ↔ a ∉ l := by
  rw [← countOcc_pos_iff]
  omega

theorem nodup_countOcc_le_one {α : Type} [DecidableEq α] {a : α} {l : List α}
    (h : l.Nodup) : countOcc a l ≤ 1 := by
  induction l with
  | nil => simp [countOcc]
  | cons b t ih =>
      obtain ⟨hb, ht⟩ := List.nodup_cons.mp h
      by_cases hba : b = a
      · subst hba
        have : countOcc b t = 0 := countOcc_eq_zero.mpr hb
        simp [countOcc, this]
      · simpa [countOcc, hba] using ih ht

theorem countOcc_singleton {α : Type} [DecidableEq α] (a b : α) :
    countOcc a [b] = if b = a then 1 else 0 := by
  simp [countOcc]

section CycleProof

variable {V : Type} [DecidableEq V]

theorem adj_mem_univ {g : List (V × List V)} {u x : V} (h : x ∈ adj g u) :
    x ∈ univList g := by
  unfold adj at h
  cases hl : dlookup g u with
  | none => rw [hl] at h; simp at h
  | some l =>
      rw [hl] at h
      simp only [Option.getD_some] at h
      refine List.mem_append.mpr (Or.inr ?_)
      exact List.mem_flatten.mpr ⟨l, List.mem_map.mpr ⟨(u, l), dlookup_mem hl, rfl⟩, h⟩

theorem edge_mem_keys {g : List (V × List V)} {u v : V} (h : edge g u v) :
    u ∈ gkeys g := by
  unfold edge adj at h
  cases hl : dlookup g u with
  | none => rw [hl] at h; simp at h
  | some l => exact List.mem_map.mpr ⟨(u, l), dlookup_mem hl, rfl⟩

omit [DecidableEq V] in
theorem length_le_maxAdj {g : List (V × List V)} {l : List V} (h : l ∈ g.map Prod.snd) :
    l.length ≤ maxAdj g := by
  unfold maxAdj
  induction g with
  | nil => simp at h
  | cons p t ih =>
      simp only [List.map_cons, List.foldr_cons]
      rcases List.mem_map.mp h with ⟨q, hq, hql⟩
      rcases List.mem_cons.mp hq with h1 | h2
      · subst h1; rw [hql]; exact le_max_left _ _
      · exact le_trans (ih (List.mem_map.mpr ⟨q, h2, hql⟩)) (le_max_right _ _)

theorem adj_length_le (g : List (V × List V)) (u : V) :
    (adj g u).length ≤ maxAdj g := by
  unfold adj
  cases hl : dlookup g u with
  | none => simp
  | some l =>
      simp only [Option.getD_some]
      exact length_le_maxAdj (List.mem_map.mpr ⟨(u, l), dlookup_mem hl, rfl⟩)

theorem card_visit {g : List (V × List V)} {visited : List V} {x : V}
    (hx : x ∈ univList g) (hnv : x ∉ visited) :
    ((univList g).toFinset \ (x :: visited).toFinset).card + 1 =
      ((univList g).toFinset \ visited.toFinset).card := by
  have hset : (univList g).toFinset \ (x :: visited).toFinset =
      ((univList g).toFinset \ visited.toFinset).erase x := by
    ext y
    simp only [List.toFinset_cons, Finset.mem_sdiff, Finset.mem_insert, Finset.mem_erase,
      List.mem_toFinset]
    constructor
    · rintro ⟨hy, hy2⟩
      push_neg at hy2
      exact ⟨hy2.1, hy, hy2.2⟩
    · rintro ⟨hy1, hy2, hy3⟩
      exact ⟨hy2, by push_neg; exact ⟨hy1, hy3⟩⟩
  have hmem : x ∈ (univList g).toFinset \ visited.toFinset := by
    simp only [Finset.mem_sdiff, List.mem_toFinset]
    exact ⟨hx, hnv⟩
  rw [hset, Finset.card_erase_of_mem hmem]
  have := Finset.card_pos.mpr ⟨x, hmem⟩
  omega

theorem dfsRun_isSome {g : List (V × List V)} :
    ∀ (fuel : Nat) (visited : List V) (frames : List (V × List V)) (root : List V),
      dfsMeasure g visited frames root < fuel →
      (∀ x ∈ root, x ∈ univList g) →
      (∀ p ∈ frames, ∀ x ∈ p.2, x ∈ adj g p.1) →
      (dfsRun g fuel visited frames root).isSome := by
  intro fuel
  induction fuel with
  | zero => intro visited frames root hm _ _; omega
  | succ n ih =>
      intro visited frames root hm hroot hframes
      cases frames with
      | nil =>
          cases root with
          | nil => simp [dfsRun]
          | cons v vs =>
              have hv_univ : v ∈ univList g := hroot v (by simp)
              by_cases hv : v ∈ visited
              · rw [dfsRun]
                simp only [hv, if_true]
                refine ih visited [] vs ?_ (fun x hx => hroot x (by simp [hx])) (by simp)
                unfold dfsMeasure at hm ⊢
                simp only [List.length_cons] at hm
                omega
              · rw [dfsRun]
                simp only [hv, if_false]
                refine ih (v :: visited) [(v, adj g v)] vs ?_
                  (fun x hx => hroot x (by simp [hx])) ?_
                · have hcard := card_visit hv_univ hv
                  have hlen := adj_length_le g v
                  unfold dfsMeasure at hm ⊢
                  unfold framesWeight at hm ⊢
                  simp only [List.map_cons, List.map_nil, List.sum_cons, List.sum_nil,
                    List.length_cons] at hm ⊢
                  nlinarith [hcard, hlen, hm]
                · intro p hp x hx
                  simp only [List.mem_singleton] at hp
                  subst hp
                  exact hx
      | cons fr rest =>
          obtain ⟨u, rem⟩ := fr
          cases rem with
          | nil =>
              rw [dfsRun]
              refine ih visited rest root ?_ hroot
                (fun p hp => hframes p (List.mem_cons_of_mem _ hp))
              unfold dfsMeasure framesWeight at hm ⊢
              simp only [List.map_cons, List.sum_cons, List.length_nil] at hm
              omega
          | cons w ws =>
              by_cases h1 : w ∈ u :: rest.map Prod.fst
              · rw [dfsRun]
                simp [h1]
              · have hw_adj : w ∈ adj g u := hframes (u, w :: ws) (by simp) w (by simp)
                have hw_univ : w ∈ univList g := adj_mem_univ hw_adj
                by_cases h2 : w ∈ visited
                · rw [dfsRun]
                  simp only [h1, if_false, h2, if_true]
                  refine ih visited ((u, ws) :: rest) root ?_ hroot ?_
                  · unfold dfsMeasure framesWeight at hm ⊢
                    simp only [List.map_cons, List.sum_cons, List.length_cons] at hm ⊢
                    omega
                  · intro p hp x hx
                    rcases List.mem_cons.mp hp with h3 | h3
                    · subst h3
                      exact hframes (u, w :: ws) (by simp) x (by simp [hx])
                    · exact hframes p (List.mem_cons_of_mem _ h3) x hx
                · rw [dfsRun]
                  simp only [h1, if_false, h2, if_false]
                  refine ih (w :: visited) ((w, adj g w) :: (u, ws) :: rest) root ?_ hroot ?_
                  · have hcard := card_visit hw_univ h2
                    have hlen := adj_length_le g w
                    unfold dfsMeasure framesWeight at hm ⊢
                    simp only [List.map_cons, List.sum_cons, List.length_cons] at hm ⊢
                    nlinarith [hcard, hlen, hm]
                  · intro p hp x hx
                    rcases List.mem_cons.mp hp with h3 | h3
                    · subst h3; exact hx
                    · rcases List.mem_cons.mp h3 with h4 | h4
                      · subst h4
                        exact hframes (u, w :: ws) (by simp) x (by simp [hx])
                      · exact hframes p (by simp [h4]) x hx

/-! ## Invariant preservation for `cycle_in_graph` -/

theorem chain_reach {g : List (V × List V)} :
    ∀ (l : List V), List.Chain' (fun a b => edge g b a) l → ∀ x ∈ l,
      ∀ (hne : l ≠ []), Relation.ReflTransGen (edge g) x (l.head hne) := by
  intro l
  induction l with
  | nil => intro _ x hx; simp at hx
  | cons a t ih =>
      intro hc x hx hne
      simp only [List.head_cons]
      rcases List.mem_cons.mp hx with h | h
      · subst h; exact Relation.ReflTransGen.refl
      · cases t with
        | nil => simp at h
        | cons b t' =>
            have hc2 := List.chain'_cons.mp hc
            have hrtg := ih hc2.2 x h (by simp)
            simp only [List.head_cons] at hrtg
            exact Relation.ReflTransGen.tail hrtg hc2.1

theorem reach_closed {g : List (V × List V)} {visited path : List V}
    (hclosed : ∀ x ∈ visited, x ∉ path → ∀ w, edge g x w → w ∈ visited ∧ w ∉ path)
    {a b : V} (hab : Relation.ReflTransGen (edge g) a b)
    (ha1 : a ∈ visited) (ha2 : a ∉ path) : b ∈ visited ∧ b ∉ path := by
  induction hab with
  | refl => exact ⟨ha1, ha2⟩
  | tail _ hbc ih => exact hclosed _ ih.1 ih.2 _ hbc

theorem framesOK_mono {g : List (V × List V)} {visited visited' : List V}
    {frames : List (V × List V)} (h : framesOK g visited frames)
    (hsub : ∀ x ∈ visited, x ∈ visited') : framesOK g visited' frames := by
  induction frames with
  | nil => trivial
  | cons fr rest ih =>
      obtain ⟨u, rem⟩ := fr
      obtain ⟨⟨pre, hpre, hfacts⟩, hrest⟩ := h
      exact ⟨⟨pre, hpre, fun x hx => ⟨hsub x (hfacts x hx).1, (hfacts x hx).2⟩⟩, ih hrest⟩

theorem Inv_init (g : List (V × List V)) : Inv g [] [] (gkeys g) := by
  refine ⟨⟨[], rfl, by simp⟩, trivial, by simp, by simp, by simp, by simp, by simp⟩

theorem Inv_root_skip {g : List (V × List V)} {visited : List V} {v : V} {vs : List V}
    (hI : Inv g visited [] (v :: vs)) (hv : v ∈ visited) : Inv g visited [] vs := by
  obtain ⟨⟨pre, hpre, hprev⟩, hf, hc, hpv, hnd, hcl, hac⟩ := hI
  refine ⟨⟨pre ++ [v], by simpa using hpre, ?_⟩, hf, hc, hpv, hnd, hcl, hac⟩
  intro x hx
  rcases List.mem_append.mp hx with h | h
  · exact hprev x h
  · simp only [List.mem_singleton] at h
    subst h
    exact hv

theorem Inv_root_descend {g : List (V × List V)} {visited : List V} {v : V} {vs : List V}
    (hI : Inv g visited [] (v :: vs)) (hv : v ∉ visited) :
    Inv g (v :: visited) [(v, adj g v)] vs := by
  obtain ⟨⟨pre, hpre, hprev⟩, _, _, _, _, hcl, hac⟩ := hI
  refine ⟨⟨pre ++ [v], by simpa using hpre, ?_⟩, ?_, by simp, by simp, by simp, ?_, ?_⟩
  · intro x hx
    rcases List.mem_append.mp hx with h | h
    · exact List.mem_cons_of_mem _ (hprev x h)
    · simp only [List.mem_singleton] at h
      subst h
      simp
  · exact ⟨⟨[], by simp, by simp⟩, trivial⟩
  · intro x hx hxp w hw
    simp only [List.map_cons, List.map_nil, List.mem_singleton] at hxp
    have hx' : x ∈ visited := by
      rcases List.mem_cons.mp hx with h | h
      · exact absurd h hxp
      · exact h
    have := hcl x hx' (by simp) w hw
    refine ⟨List.mem_cons_of_mem _ this.1, ?_⟩
    simp only [List.map_cons, List.map_nil, List.mem_singleton]
    intro hwv
    subst hwv
    exact hv this.1
  · intro x hx hxp
    simp only [List.map_cons, List.map_nil, List.mem_singleton] at hxp
    have hx' : x ∈ visited := by
      rcases List.mem_cons.mp hx with h | h
      · exact absurd h hxp
      · exact h
    exact hac x hx' (by simp)

theorem Inv_skip {g : List (V × List V)} {visited : List V} {u w : V} {ws : List V}
    {rest : List (V × List V)} {root : List V}
    (hI : Inv g visited ((u, w :: ws) :: rest) root)
    (hw1 : w ∉ u :: rest.map Prod.fst) (hw2 : w ∈ visited) :
    Inv g visited ((u, ws) :: rest) root := by
  obtain ⟨hroot, ⟨⟨pre, hpre, hfacts⟩, hfr⟩, hc, hpv, hnd, hcl, hac⟩ := hI
  refine ⟨hroot, ⟨⟨pre ++ [w], by simpa using hpre, ?_⟩, hfr⟩, ?_, ?_, ?_, ?_, ?_⟩
  · intro x hx
    rcases List.mem_append.mp hx with h | h
    · exact hfacts x h
    · simp only [List.mem_singleton] at h
      subst h
      exact ⟨hw2, hw1⟩
  · simpa using hc
  · simpa using hpv
  · simpa using hnd
  · simpa using hcl
  · simpa using hac

theorem Inv_descend {g : List (V × List V)} {visited : List V} {u w : V} {ws : List V}
    {rest : List (V × List V)} {root : List V}
    (hI : Inv g visited ((u, w :: ws) :: rest) root)
    (hw1 : w ∉ u :: rest.map Prod.fst) (hw2 : w ∉ visited) :
    Inv g (w :: visited) ((w, adj g w) :: (u, ws) :: rest) root := by
  obtain ⟨⟨rpre, hrpre, hrfacts⟩, ⟨⟨pre, hpre, hfacts⟩, hfr⟩, hc, hpv, hnd, hcl, hac⟩ := hI
  have hw_adj : w ∈ adj g u := by rw [hpre]; simp
  refine ⟨⟨rpre, hrpre, fun x hx => List.mem_cons_of_mem _ (hrfacts x hx)⟩, ?_, ?_, ?_, ?_, ?_, ?_⟩
  · refine ⟨⟨[], by simp, by simp⟩, ⟨pre ++ [w], by simpa using hpre, ?_⟩,
      framesOK_mono hfr (fun x hx => List.mem_cons_of_mem _ hx)⟩
    intro x hx
    rcases List.mem_append.mp hx with h | h
    · exact ⟨List.mem_cons_of_mem _ (hfacts x h).1, (hfacts x h).2⟩
    · simp only [List.mem_singleton] at h
      subst h
      exact ⟨by simp, hw1⟩
  · simp only [List.map_cons]
    rw [List.chain'_cons]
    simp only [List.map_cons] at hc
    exact ⟨hw_adj, hc⟩
  · intro p hp
    simp only [List.map_cons] at hp
    rcases List.mem_cons.mp hp with h | h
    · subst h; simp
    · simp only [List.map_cons] at hpv
      exact List.mem_cons_of_mem _ (hpv p h)
  · simp only [List.map_cons] at hnd ⊢
    exact List.nodup_cons.mpr ⟨by simpa using hw1, hnd⟩
  · intro x hx hxp y hy
    simp only [List.map_cons, List.mem_cons] at hxp
    push_neg at hxp
    have hx' : x ∈ visited := by
      rcases List.mem_cons.mp hx with h | h
      · exact absurd h hxp.1
      · exact h
    have hxp' : x ∉ (u :: rest.map Prod.fst) := by
      simp only [List.mem_cons]
      push_neg
      exact ⟨hxp.2.1, hxp.2.2⟩
    have hres := hcl x hx' (by simpa using hxp') y hy
    have hyi : y ≠ w := fun hyw => hw2 (hyw ▸ hres.1)
    refine ⟨List.mem_cons_of_mem _ hres.1, ?_⟩
    simp only [List.map_cons, List.mem_cons]
    push_neg
    have := hres.2
    simp only [List.map_cons, List.mem_cons] at this
    push_neg at this
    exact ⟨hyi, this.1, this.2⟩
  · intro x hx hxp
    simp only [List.map_cons, List.mem_cons] at hxp
    push_neg at hxp
    have hx' : x ∈ visited := by
      rcases List.mem_cons.mp hx with h | h
      · exact absurd h hxp.1
      · exact h
    refine hac x hx' ?_
    simp only [List.map_cons, List.mem_cons]
    push_neg
    exact ⟨hxp.2.1, hxp.2.2⟩

theorem Inv_finish {g : List (V × List V)} {visited : List V} {u : V}
    {rest : List (V × List V)} {root : List V}
    (hI : Inv g visited ((u, []) :: rest) root) : Inv g visited rest root := by
  obtain ⟨hroot, ⟨⟨pre, hpre, hfacts⟩, hfr⟩, hc, hpv, hnd, hcl, hac⟩ := hI
  simp only [List.append_nil] at hpre
  have hadj : ∀ x ∈ adj g u, x ∈ visited ∧ x ∉ u :: rest.map Prod.fst := by
    intro x hx
    exact hfacts x (hpre ▸ hx)
  simp only [List.map_cons] at hc hpv hnd
  have hu_vis : u ∈ visited := hpv u (by simp)
  have hu_rest : u ∉ rest.map Prod.fst := (List.nodup_cons.mp hnd).1
  have hcl_new : ∀ x ∈ visited, x ∉ rest.map Prod.fst → ∀ y, edge g x y →
      y ∈ visited ∧ y ∉ rest.map Prod.fst := by
    intro x hx hxp y hy
    by_cases hxu : x = u
    · subst hxu
      have := hadj y hy
      refine ⟨this.1, ?_⟩
      have := this.2
      simp only [List.mem_cons] at this
      push_neg at this
      exact this.2
    · have hres := hcl x hx (by
        simp only [List.map_cons, List.mem_cons]
        push_neg
        exact ⟨hxu, hxp⟩) y hy
      refine ⟨hres.1, ?_⟩
      have := hres.2
      simp only [List.map_cons, List.mem_cons] at this
      push_neg at this
      exact this.2
  refine ⟨hroot, hfr, (List.chain'_cons'.mp hc).2, fun p hp => hpv p (by simp [hp]),
    (List.nodup_cons.mp hnd).2, hcl_new, ?_⟩
  intro x hx hxp
  by_cases hxu : x = u
  · subst hxu
    intro hT
    rcases Relation.TransGen.head'_iff.mp hT with ⟨c, hc1, hc2⟩
    have hcfin := hadj c hc1
    have hcl' : ∀ z ∈ visited, z ∉ (x :: rest.map Prod.fst) → ∀ y, edge g z y →
        y ∈ visited ∧ y ∉ (x :: rest.map Prod.fst) := by simpa using hcl
    have := reach_closed hcl' hc2 hcfin.1 hcfin.2
    exact this.2 (by simp)
  · exact hac x hx (by
      simp only [List.map_cons, List.mem_cons]
      push_neg
      exact ⟨hxu, hxp⟩)

theorem Inv_found {g : List (V × List V)} {visited : List V} {u w : V} {ws : List V}
    {rest : List (V × List V)} {root : List V}
    (hI : Inv g visited ((u, w :: ws) :: rest) root)
    (hw : w ∈ u :: rest.map Prod.fst) : hasCycle g := by
  obtain ⟨_, ⟨⟨pre, hpre, _⟩, _⟩, hc, _, _, _, _⟩ := hI
  have hw_adj : w ∈ adj g u := by rw [hpre]; simp
  simp only [List.map_cons] at hc
  have hrtg := chain_reach (u :: rest.map Prod.fst) hc w hw (by simp)
  simp only [List.head_cons] at hrtg
  exact ⟨w, Relation.TransGen.tail' hrtg hw_adj⟩

theorem Inv_final {g : List (V × List V)} {visited : List V}
    (hI : Inv g visited [] []) : ¬ hasCycle g := by
  obtain ⟨⟨pre, hpre, hfacts⟩, _, _, _, _, _, hac⟩ := hI
  simp only [List.append_nil] at hpre
  rintro ⟨v, hv⟩
  obtain ⟨y, hy, _⟩ := Relation.TransGen.head'_iff.mp hv
  have hv_keys : v ∈ gkeys g := edge_mem_keys hy
  have hv_vis : v ∈ visited := hfacts v (hpre ▸ hv_keys)
  exact hac v hv_vis (by simp) hv

theorem dfsRun_sound {g : List (V × List V)} :
    ∀ (fuel : Nat) (visited : List V) (frames : List (V × List V)) (root : List V),
      Inv g visited frames root →
      dfsRun g fuel visited frames root = Option.some true → hasCycle g := by
  intro fuel
  induction fuel with
  | zero => intro visited frames root _ h; simp [dfsRun] at h
  | succ n ih =>
      intro visited frames root hI h
      cases frames with
      | nil =>
          cases root with
          | nil => simp [dfsRun] at h
          | cons v vs =>
              by_cases hv : v ∈ visited
              · exact ih _ _ _ (Inv_root_skip hI hv) (by rw [dfsRun] at h; simpa [hv] using h)
              · exact ih _ _ _ (Inv_root_descend hI hv) (by rw [dfsRun] at h; simpa [hv] using h)
      | cons fr rest =>
          obtain ⟨u, rem⟩ := fr
          cases rem with
          | nil => exact ih _ _ _ (Inv_finish hI) (by rw [dfsRun] at h; exact h)
          | cons w ws =>
              by_cases h1 : w ∈ u :: rest.map Prod.fst
              · exact Inv_found hI h1
              · by_cases h2 : w ∈ visited
                · exact ih _ _ _ (Inv_skip hI h1 h2)
                    (by rw [dfsRun] at h; simpa [h1, h2] using h)
                · exact ih _ _ _ (Inv_descend hI h1 h2)
                    (by rw [dfsRun] at h; simpa [h1, h2] using h)

theorem dfsRun_complete {g : List (V × List V)} :
    ∀ (fuel : Nat) (visited : List V) (frames : List (V × List V)) (root : List V),
      Inv g visited frames root →
      dfsRun g fuel visited frames root = Option.some false → ¬ hasCycle g := by
  intro fuel
  induction fuel with
  | zero => intro visited frames root _ h; simp [dfsRun] at h
  | succ n ih =>
      intro visited frames root hI h
      cases frames with
      | nil =>
          cases root with
          | nil => exact Inv_final hI
          | cons v vs =>
              by_cases hv : v ∈ visited
              · exact ih _ _ _ (Inv_root_skip hI hv) (by rw [dfsRun] at h; simpa [hv] using h)
              · exact ih _ _ _ (Inv_root_descend hI hv) (by rw [dfsRun] at h; simpa [hv] using h)
      | cons fr rest =>
          obtain ⟨u, rem⟩ := fr
          cases rem with
          | nil => exact ih _ _ _ (Inv_finish hI) (by rw [dfsRun] at h; exact h)
          | cons w ws =>
              by_cases h1 : w ∈ u :: rest.map Prod.fst
              · rw [dfsRun] at h
                simp [h1] at h
              · by_cases h2 : w ∈ visited
                · exact ih _ _ _ (Inv_skip hI h1 h2)
                    (by rw [dfsRun] at h; simpa [h1, h2] using h)
                · exact ih _ _ _ (Inv_descend hI h1 h2)
                    (by rw [dfsRun] at h; simpa [h1, h2] using h)

theorem dfsRun_init_isSome (g : List (V × List V)) :
    (dfsRun g (fuelBound g) [] [] (gkeys g)).isSome := by
  refine dfsRun_isSome (fuelBound g) [] [] (gkeys g) ?_ ?_ (by simp)
  · unfold dfsMeasure fuelBound framesWeight
    simp only [List.toFinset_nil, Finset.sdiff_empty, List.map_nil, List.sum_nil]
    omega
  · intro x hx
    exact List.mem_append.mpr (Or.inl hx)

/-- C1: for every finite directed graph given as a forward adjacency map
(including graphs with disconnected components and with vertices appearing
only as neighbours and not as keys), `cycle_in_graph` returns `true` if and
only if the graph contains a directed cycle, i.e. some vertex reaches itself
by a nonempty directed path. -/
theorem cycle_in_graph_iff_hasCycle (g : List (V × List V)) :
    cycle_in_graph g = true ↔ hasCycle g := by
  constructor
  · intro h
    unfold cycle_in_graph at h
    cases hr : dfsRun g (fuelBound g) [] [] (gkeys g) with
    | none => rw [hr] at h; simp at h
    | some b =>
        rw [hr] at h
        simp only [Option.getD_some] at h
        subst h
        exact dfsRun_sound _ _ _ _ (Inv_init g) hr
  · intro hcyc
    have hterm := dfsRun_init_isSome g
    obtain ⟨b, hb⟩ := Option.isSome_iff_exists.mp hterm
    cases b with
    | false => exact absurd hcyc (dfsRun_complete _ _ _ _ (Inv_init g) hb)
    | true => unfold cycle_in_graph; rw [hb]; rfl

end CycleProof

/-! ## Lemmas about `Parser.hierarchicy` -/

theorem dlookup_of_mem_nodup {α β : Type} [DecidableEq α] {l : List (α × β)} {a : α} {b : β}
    (hm : (a, b) ∈ l) (hnd : (l.map Prod.fst).Nodup) : dlookup l a = Option.some b := by
  induction l with
  | nil => simp at hm
  | cons p t ih =>
      obtain ⟨k, v⟩ := p
      simp only [List.map_cons, List.nodup_cons] at hnd
      rcases List.mem_cons.mp hm with h | h
      · injection h with h1 h2
        subst h1
        subst h2
        simp [dlookup]
      · have hka : k ≠ a := by
          intro hka
          subst hka
          exact hnd.1 (List.mem_map.mpr ⟨(k, b), h, rfl⟩)
        simp only [dlookup, if_neg hka]
        exact ih h hnd.2

theorem dlookup_isSome_of_mem_keys {α β : Type} [DecidableEq α] {l : List (α × β)} {a : α}
    (h : a ∈ l.map Prod.fst) : ∃ b, dlookup l a = Option.some b := by
  induction l with
  | nil => simp at h
  | cons p t ih =>
      obtain ⟨k, v⟩ := p
      by_cases hk : k = a
      · subst hk; exact ⟨v, by simp [dlookup]⟩
      · simp only [List.map_cons, List.mem_cons] at h
        rcases h with h | h
        · exact absurd h.symm hk
        · simpa [dlookup, hk] using ih h

theorem countOcc_flatten_eq_sum {α : Type} [DecidableEq α] (ls : List (List α)) (a : α) :
    (ls.map (fun l => countOcc a l)).sum = countOcc a ls.flatten := by
  induction ls with
  | nil => simp [countOcc]
  | cons l t ih => simp [countOcc_append, ih]

theorem mem_flatten_take {α : Type} :
    ∀ (ls : List (List α)) (j : Nat) (v : α),
      v ∈ (ls.take j).flatten ↔ ∃ i, ∃ (hi : i < ls.length), i < j ∧ v ∈ ls.get ⟨i, hi⟩ := by
  intro ls
  induction ls with
  | nil => intro j v; simp
  | cons l t ih =>
      intro j v
      cases j with
      | zero => simp
      | succ j =>
          simp only [List.take_succ_cons, List.flatten_cons, List.mem_append]
          constructor
          · rintro (h | h)
            · exact ⟨0, by simp, by omega, h⟩
            · obtain ⟨i, hi, hij, hv⟩ := (ih j v).mp h
              exact ⟨i + 1, by simpa using Nat.succ_lt_succ hi, by omega, hv⟩
          · rintro ⟨i, hi, hij, hv⟩
            cases i with
            | zero => exact Or.inl hv
            | succ i =>
                refine Or.inr ((ih j v).mpr ⟨i, by simpa using Nat.lt_of_succ_lt_succ hi, by omega, hv⟩)

theorem layersOK_snoc {gr : List (String × List String)} {ks : List String} :
    ∀ (ls : List (List String)) (prev : List String) (l : List String),
      layersOK gr ks prev ls → l.Nodup →
      (∀ v ∈ l, v ∉ prev ++ ls.flatten ∧ (∀ x ∈ adj gr v, x ∈ prev ++ ls.flatten) ∧ v ∈ ks) →
      layersOK gr ks prev (ls ++ [l]) := by
  intro ls
  induction ls with
  | nil =>
      intro prev l _ hnd hcond
      refine ⟨hnd, ?_, trivial⟩
      intro v hv
      have := hcond v hv
      simpa using this
  | cons a t ih =>
      intro prev l hOK hnd hcond
      obtain ⟨ha, hconds, hrest⟩ := hOK
      refine ⟨ha, hconds, ih (prev ++ a) l hrest hnd ?_⟩
      intro v hv
      have := hcond v hv
      simpa [List.append_assoc] using this

theorem layersOK_flatten {gr : List (String × List String)} {ks : List String} :
    ∀ (ls : List (List String)) (prev : List String), layersOK gr ks prev ls →
      ls.flatten.Nodup ∧ ∀ v ∈ ls.flatten, v ∉ prev ∧ v ∈ ks := by
  intro ls
  induction ls with
  | nil => intro prev _; simp
  | cons l t ih =>
      intro prev hOK
      obtain ⟨hnd, hconds, hrest⟩ := hOK
      obtain ⟨htnd, htmem⟩ := ih (prev ++ l) hrest
      simp only [List.flatten_cons]
      constructor
      · refine List.nodup_append.mpr ⟨hnd, htnd, ?_⟩
        intro v hv hvt
        have := (htmem v hvt).1
        exact this (List.mem_append.mpr (Or.inr hv))
      · intro v hv
        rcases List.mem_append.mp hv with h | h
        · exact ⟨(hconds v h).1, (hconds v h).2.2⟩
        · have := htmem v h
          exact ⟨fun hp => this.1 (List.mem_append.mpr (Or.inl hp)), this.2⟩

theorem layersOK_get {gr : List (String × List String)} {ks : List String} :
    ∀ (ls : List (List String)) (prev : List String), layersOK gr ks prev ls →
      ∀ (i : Nat) (hi : i < ls.length) (v : String), v ∈ ls.get ⟨i, hi⟩ →
        v ∉ prev ++ (ls.take i).flatten ∧ ∀ x ∈ adj gr v, x ∈ prev ++ (ls.take i).flatten := by
  intro ls
  induction ls with
  | nil => intro prev _ i hi; simp at hi
  | cons l t ih =>
      intro prev hOK i hi v hv
      obtain ⟨hnd, hconds, hrest⟩ := hOK
      cases i with
      | zero =>
          simp only [List.get] at hv
          have := hconds v hv
          simpa using ⟨this.1, this.2.1⟩
      | succ i =>
          simp only [List.get] at hv
          have := ih (prev ++ l) hrest i (by simpa using Nat.lt_of_succ_lt_succ hi) v hv
          simpa [List.append_assoc] using this

theorem layersOK_unique {gr : List (String × List String)} {ks : List String}
    {ls : List (List String)} (hOK : layersOK gr ks [] ls) :
    ∀ (i j : Nat) (hi : i < ls.length) (hj : j < ls.length) (v : String),
      v ∈ ls.get ⟨i, hi⟩ → v ∈ ls.get ⟨j, hj⟩ → i = j := by
  have key : ∀ (i j : Nat) (hi : i < ls.length) (hj : j < ls.length) (v : String),
      i < j → v ∈ ls.get ⟨i, hi⟩ → v ∈ ls.get ⟨j, hj⟩ → False := by
    intro i j hi hj v hij hvi hvj
    have h1 := (layersOK_get ls [] hOK j hj v hvj).1
    exact h1 (by
      simp only [List.nil_append]
      exact (mem_flatten_take ls j v).mpr ⟨i, hi, hij, hvi⟩)
  intro i j hi hj v hvi hvj
  rcases Nat.lt_trichotomy i j with h | h | h
  · exact (key i j hi hj v h hvi hvj).elim
  · exact h
  · exact (key j i hj hi v h hvj hvi).elim

theorem mem_nextLayer {gr : List (String × List String)} {coll : List String} {v : String} :
    v ∈ nextLayer gr coll ↔
      ∃ radj, (v, radj) ∈ gr ∧ v ∉ coll ∧ ∀ x ∈ radj, x ∈ coll := by
  unfold nextLayer
  simp only [List.mem_map, List.mem_filter, Bool.and_eq_true, decide_eq_true_eq]
  constructor
  · rintro ⟨⟨a, radj⟩, ⟨hm, h1, h2⟩, rfl⟩
    exact ⟨radj, hm, h1, h2⟩
  · rintro ⟨radj, hm, h1, h2⟩
    exact ⟨(v, radj), ⟨hm, h1, h2⟩, rfl⟩

theorem nextLayer_sublist (gr : List (String × List String)) (coll : List String) :
    (nextLayer gr coll).Sublist (gr.map Prod.fst) :=
  List.Sublist.map Prod.fst (List.filter_sublist gr)

theorem hierLoop_extends {gr : List (String × List String)} {total : Nat} :
    ∀ (fuel : Nat) (layers : List (List String)) (coll : List String)
      (out : List (List String)),
      hierLoop gr total fuel layers coll = .ok out → ∃ ext, out = layers ++ ext := by
  intro fuel
  induction fuel with
  | zero => intro layers coll out h; simp [hierLoop] at h
  | succ n ih =>
      intro layers coll out h
      rw [hierLoop] at h
      by_cases hlt : coll.length < total
      · rw [if_pos hlt] at h
        obtain ⟨ext, hext⟩ := ih _ _ _ h
        exact ⟨[nextLayer gr coll] ++ ext, by simp [hext]⟩
      · rw [if_neg hlt] at h
        injection h with h
        exact ⟨[], by simp [h.symm]⟩

theorem hierLoop_ok {gr : List (String × List String)} {total : Nat}
    (hknd : (gr.map Prod.fst).Nodup) :
    ∀ (fuel : Nat) (layers : List (List String)) (coll : List String)
      (out : List (List String)),
      hierLoop gr total fuel layers coll = .ok out →
      coll = layers.flatten →
      layersOK gr (gr.map Prod.fst) [] layers →
      layersOK gr (gr.map Prod.fst) [] out ∧ total ≤ out.flatten.length := by
  intro fuel
  induction fuel with
  | zero => intro layers coll out h; simp [hierLoop] at h
  | succ n ih =>
      intro layers coll out h hcoll hOK
      rw [hierLoop] at h
      by_cases hlt : coll.length < total
      · rw [if_pos hlt] at h
        refine ih _ _ _ h (by simp [hcoll]) ?_
        refine layersOK_snoc layers [] (nextLayer gr coll) hOK
          (List.Nodup.sublist (nextLayer_sublist gr coll) hknd) ?_
        intro v hv
        obtain ⟨radj, hm, h1, h2⟩ := mem_nextLayer.mp hv
        have hadj : adj gr v = radj := by
          unfold adj
          rw [dlookup_of_mem_nodup hm hknd]
          rfl
        subst hcoll
        refine ⟨by simpa using h1, ?_, List.mem_map.mpr ⟨(v, radj), hm, rfl⟩⟩
        intro x hx
        rw [hadj] at hx
        simpa using h2 x hx
      · rw [if_neg hlt] at h
        injection h with h
        subst h
        rw [hcoll] at hlt
        exact ⟨hOK, by omega⟩

theorem mem_startNodes {gr : List (String × List String)} :
    ∀ (gs : List (String × List String)) (id : String),
      id ∈ startNodes gr gs ↔ ∃ a, (id, a) ∈ gs ∧ a ≠ [] ∧ adj gr id = [] := by
  intro gs
  induction gs with
  | nil => intro id; simp [startNodes]
  | cons p t ih =>
      intro id
      obtain ⟨k, a⟩ := p
      by_cases ha : a = []
      · simp only [startNodes]
        rw [if_pos ha, ih]
        constructor
        · rintro ⟨b, hb, hbne, hadj⟩
          exact ⟨b, List.mem_cons_of_mem _ hb, hbne, hadj⟩
        · rintro ⟨b, hb, hbne, hadj⟩
          rcases List.mem_cons.mp hb with h | h
          · injection h with h1 h2
            subst h2
            exact absurd ha hbne
          · exact ⟨b, h, hbne, hadj⟩
      · simp only [startNodes, if_neg ha]
        by_cases hrec : adj gr k = []
        · rw [if_pos hrec]
          constructor
          · intro h
            rcases List.mem_cons.mp h with h | h
            · subst h
              exact ⟨a, by simp, ha, hrec⟩
            · obtain ⟨b, hb, hbne, hadj⟩ := (ih id).mp h
              exact ⟨b, List.mem_cons_of_mem _ hb, hbne, hadj⟩
          · rintro ⟨b, hb, hbne, hadj⟩
            rcases List.mem_cons.mp hb with h | h
            · injection h with h1 h2
              subst h1
              simp
            · exact List.mem_cons_of_mem _ ((ih id).mpr ⟨b, h, hbne, hadj⟩)
        · rw [if_neg hrec]
          rw [ih]
          constructor
          · rintro ⟨b, hb, hbne, hadj⟩
            exact ⟨b, List.mem_cons_of_mem _ hb, hbne, hadj⟩
          · rintro ⟨b, hb, hbne, hadj⟩
            rcases List.mem_cons.mp hb with h | h
            · injection h with h1 h2
              subst h1
              exact absurd hadj hrec
            · exact ⟨b, h, hbne, hadj⟩

theorem mem_endNodes :
    ∀ (gs : List (String × List String)) (id : String),
      id ∈ endNodes gs ↔ (id, ([] : List String)) ∈ gs := by
  intro gs
  induction gs with
  | nil => intro id; simp [endNodes]
  | cons p t ih =>
      intro id
      obtain ⟨k, a⟩ := p
      by_cases ha : a = []
      · simp only [endNodes]
        rw [if_pos ha]
        constructor
        · intro h
          rcases List.mem_cons.mp h with h | h
          · subst h; simp [ha]
          · exact List.mem_cons_of_mem _ ((ih id).mp h)
        · intro h
          rcases List.mem_cons.mp h with h | h
          · injection h with h1 _
            subst h1
            simp
          · exact List.mem_cons_of_mem _ ((ih id).mpr h)
      · simp only [endNodes, if_neg ha]
        rw [ih]
        constructor
        · intro h
          exact List.mem_cons_of_mem _ h
        · intro h
          rcases List.mem_cons.mp h with h | h
          · injection h with h1 h2
            exact absurd h2.symm ha
          · exact h

theorem mem_endNodes_nodup {gs : List (String × List String)}
    (hnd : (gs.map Prod.fst).Nodup) (id : String) :
    id ∈ endNodes gs ↔ id ∈ gs.map Prod.fst ∧ adj gs id = [] := by
  rw [mem_endNodes]
  constructor
  · intro h
    refine ⟨List.mem_map.mpr ⟨(id, []), h, rfl⟩, ?_⟩
    unfold adj
    rw [dlookup_of_mem_nodup h hnd]
    rfl
  · rintro ⟨h1, h2⟩
    obtain ⟨b, hb⟩ := dlookup_isSome_of_mem_keys h1
    have hmem := dlookup_mem hb
    unfold adj at h2
    rw [hb] at h2
    simp only [Option.getD_some] at h2
    exact h2 ▸ hmem

theorem mem_startNodes_nodup {gs gr : List (String × List String)}
    (hnd : (gs.map Prod.fst).Nodup) (id : String) :
    id ∈ startNodes gr gs ↔
      id ∈ gs.map Prod.fst ∧ adj gs id ≠ [] ∧ adj gr id = [] := by
  rw [mem_startNodes]
  constructor
  · rintro ⟨a, ha, hane, hrec⟩
    refine ⟨List.mem_map.mpr ⟨(id, a), ha, rfl⟩, ?_, hrec⟩
    unfold adj
    rw [dlookup_of_mem_nodup ha hnd]
    simpa using hane
  · rintro ⟨h1, h2, h3⟩
    obtain ⟨b, hb⟩ := dlookup_isSome_of_mem_keys h1
    refine ⟨b, dlookup_mem hb, ?_, h3⟩
    unfold adj at h2
    rw [hb] at h2
    simpa using h2

theorem startNodes_sublist {gr : List (String × List String)} :
    ∀ (gs : List (String × List String)), (startNodes gr gs).Sublist (gs.map Prod.fst) := by
  intro gs
  induction gs with
  | nil => simp [startNodes]
  | cons p t ih =>
      obtain ⟨k, a⟩ := p
      by_cases ha : a = []
      · simp only [startNodes, if_pos ha, List.map_cons]
        exact List.Sublist.cons _ ih
      · simp only [startNodes, if_neg ha, List.map_cons]
        by_cases hrec : adj gr k = []
        · rw [if_pos hrec]
          exact List.Sublist.cons₂ _ ih
        · rw [if_neg hrec]
          exact List.Sublist.cons _ ih

theorem sameSetB_iff {a b : List String} :
    sameSetB a b = true ↔ (∀ x ∈ a, x ∈ b) ∧ ∀ x ∈ b, x ∈ a := by
  unfold sameSetB
  simp

theorem layersOK_init {gs gr : List (String × List String)}
    (hnd : (gs.map Prod.fst).Nodup) (hk : gs.map Prod.fst = gr.map Prod.fst) :
    layersOK gr (gr.map Prod.fst) [] [startNodes gr gs] := by
  refine ⟨?_, ?_, trivial⟩
  · exact List.Nodup.sublist (startNodes_sublist gs) hnd
  · intro v hv
    obtain ⟨a, ha, hane, hrec⟩ := (mem_startNodes gs v).mp hv
    refine ⟨by simp, ?_, ?_⟩
    · intro x hx
      rw [hrec] at hx
      simp at hx
    · rw [← hk]
      exact List.mem_map.mpr ⟨(v, a), ha, rfl⟩

theorem hierarchicy_ok_elim {gs gr : List (String × List String)}
    {out : List (List String)} (hok : hierarchicy gs gr = .ok out) :
    hierLoop gr gs.length (gs.length + 1) [startNodes gr gs] (startNodes gr gs) = .ok out ∧
      sameSetB (endNodes gs) (out.getLastD []) = true := by
  unfold hierarchicy at hok
  cases hh : hierLoop gr gs.length (gs.length + 1) [startNodes gr gs] (startNodes gr gs) with
  | error e => rw [hh] at hok; simp at hok
  | ok layers =>
      rw [hh] at hok
      simp only at hok
      by_cases hs : sameSetB (endNodes gs) (layers.getLastD []) = true
      · rw [if_pos hs] at hok
        injection hok with hok
        subst hok
        exact ⟨rfl, hs⟩
      · rw [if_neg hs] at hok
        simp at hok

/-- C2: whenever `Parser.hierarchicy`, run on the forward/reverse adjacency
maps of a validated dependency graph (equal, duplicate-free key lists and
mutually consistent adjacency), returns layers instead of raising, the result
is a valid topological partition: the layer of the producer of every edge is
strictly below the layer of its consumer, every node id occurs in exactly one
layer (counted with multiplicity over all layers), and the final layer is
exactly the set of sink nodes (empty forward adjacency); when the final layer
would differ from the sink set the function raises instead of returning. -/
theorem hierarchicy_topological (gs gr : List (String × List String))
    (hnd : (gs.map Prod.fst).Nodup)
    (hk : gs.map Prod.fst = gr.map Prod.fst)
    (hcons : ∀ p ∈ gs, ∀ v ∈ p.2, p.1 ∈ adj gr v)
    (out : List (List String)) (hok : hierarchicy gs gr = .ok out) :
    (∀ u v, v ∈ adj gs u → ∀ (i j : Nat) (hi : i < out.length) (hj : j < out.length),
        u ∈ out.get ⟨i, hi⟩ → v ∈ out.get ⟨j, hj⟩ → i < j) ∧
    (∀ id, (out.map (fun l => countOcc id l)).sum = if id ∈ gs.map Prod.fst then 1 else 0) ∧
    (∀ id, id ∈ out.getLastD [] ↔ id ∈ gs.map Prod.fst ∧ adj gs id = []) := by
  obtain ⟨hloop, hsame⟩ := hierarchicy_ok_elim hok
  have hgrnd : (gr.map Prod.fst).Nodup := hk ▸ hnd
  have hinit := layersOK_init hnd hk
  obtain ⟨hOK, hlen⟩ := hierLoop_ok hgrnd _ _ _ _ hloop (by simp) hinit
  obtain ⟨hflnd, hflmem⟩ := layersOK_flatten out [] hOK
  -- the flattened layers and the key list have the same members
  have hsub : out.flatten.toFinset ⊆ (gr.map Prod.fst).toFinset := by
    intro x hx
    simp only [List.mem_toFinset] at hx ⊢
    exact (hflmem x hx).2
  have hcards : (gr.map Prod.fst).toFinset.card ≤ out.flatten.toFinset.card := by
    rw [List.toFinset_card_of_nodup hflnd, List.toFinset_card_of_nodup hgrnd]
    have : (gr.map Prod.fst).length = gs.length := by
      rw [← hk]
      exact List.length_map _ _
    omega
  have hfeq : out.flatten.toFinset = (gr.map Prod.fst).toFinset :=
    Finset.eq_of_subset_of_card_le hsub hcards
  have hmem_iff : ∀ id, id ∈ out.flatten ↔ id ∈ gs.map Prod.fst := by
    intro id
    rw [hk]
    constructor
    · intro h
      have := hfeq ▸ List.mem_toFinset.mpr h
      exact List.mem_toFinset.mp this
    · intro h
      have := hfeq ▸ List.mem_toFinset.mpr h
      exact List.mem_toFinset.mp (hfeq.symm ▸ List.mem_toFinset.mpr h)
  refine ⟨?_, ?_, ?_⟩
  · -- edge ordering
    intro u v hvadj i j hi hj hu hv
    have hune : adj gs u ≠ [] := fun he => by rw [he] at hvadj; simp at hvadj
    have hlku : ∃ l, dlookup gs u = Option.some l := by
      unfold adj at hune
      cases hcase : dlookup gs u with
      | none => rw [hcase] at hune; simp at hune
      | some l => exact ⟨l, rfl⟩
    obtain ⟨l, hl⟩ := hlku
    have hvl : v ∈ l := by
      unfold adj at hvadj
      rw [hl] at hvadj
      simpa using hvadj
    have hrecv : u ∈ adj gr v := hcons (u, l) (dlookup_mem hl) v hvl
    have hplace := layersOK_get out [] hOK j hj v hv
    have hu_take : u ∈ (out.take j).flatten := by
      have := hplace.2 u hrecv
      simpa using this
    obtain ⟨k, hk', hkj, huk⟩ := (mem_flatten_take out j u).mp hu_take
    have := layersOK_unique hOK i k hi hk' u hu huk
    omega
  · -- every node appears exactly once
    intro id
    rw [countOcc_flatten_eq_sum]
    by_cases hmem : id ∈ gs.map Prod.fst
    · rw [if_pos hmem]
      have h1 : id ∈ out.flatten := (hmem_iff id).mpr hmem
      have h2 := nodup_countOcc_le_one (a := id) hflnd
      have h3 : 0 < countOcc id out.flatten := countOcc_pos_iff.mpr h1
      omega
    · rw [if_neg hmem]
      exact countOcc_eq_zero.mpr (fun h => hmem ((hmem_iff id).mp h))
  · -- the final layer is exactly the sink set
    intro id
    obtain ⟨h1, h2⟩ := sameSetB_iff.mp hsame
    constructor
    · intro h
      exact (mem_endNodes_nodup hnd id).mp (h2 id h)
    · intro h
      exact h1 id ((mem_endNodes_nodup hnd id).mpr h)

/-- Witness for C2: the three-node chain `A → B → C` is layered as
`[[A], [B], [C]]` and the conclusion of `hierarchicy_topological` holds
there. -/
theorem hierarchicy_topological_witness :
    (∀ u v, v ∈ adj [("A", ["B"]), ("B", ["C"]), ("C", ([] : List String))] u →
      ∀ (i j : Nat) (hi : i < ([["A"], ["B"], ["C"]] : List (List String)).length)
        (hj : j < ([["A"], ["B"], ["C"]] : List (List String)).length),
        u ∈ ([["A"], ["B"], ["C"]] : List (List String)).get ⟨i, hi⟩ →
        v ∈ ([["A"], ["B"], ["C"]] : List (List String)).get ⟨j, hj⟩ → i < j) ∧
    (∀ id, (([["A"], ["B"], ["C"]] : List (List String)).map (fun l => countOcc id l)).sum =
      if id ∈ ([("A", ["B"]), ("B", ["C"]), ("C", ([] : List String))].map Prod.fst)
      then 1 else 0) ∧
    (∀ id, id ∈ ([["A"], ["B"], ["C"]] : List (List String)).getLastD [] ↔
      id ∈ ([("A", ["B"]), ("B", ["C"]), ("C", ([] : List String))].map Prod.fst) ∧
        adj [("A", ["B"]), ("B", ["C"]), ("C", ([] : List String))] id = []) :=
  hierarchicy_topological
    [("A", ["B"]), ("B", ["C"]), ("C", ([] : List String))]
    [("A", ([] : List String)), ("B", ["A"]), ("C", ["B"])]
    (by decide) (by decide) (by decide)
    [["A"], ["B"], ["C"]] (by decide)

/-- C5 (amended): for every dependency graph accepted by `hierarchicy`, the
first layer equals the `start_nodes` list, which — because of the `elif` in
the source — is the set of node ids with empty reverse adjacency AND
nonempty forward adjacency; an isolated node (empty reverse and empty forward
adjacency) is classified as a sink, excluded from the first layer, and placed
in a later layer. -/
theorem hierarchicy_first_layer (gs gr : List (String × List String))
    (hnd : (gs.map Prod.fst).Nodup)
    (out : List (List String)) (hok : hierarchicy gs gr = .ok out) :
    out.head? = Option.some (startNodes gr gs) ∧
    (∀ id, id ∈ startNodes gr gs ↔
      id ∈ gs.map Prod.fst ∧ adj gs id ≠ [] ∧ adj gr id = []) := by
  obtain ⟨hloop, _⟩ := hierarchicy_ok_elim hok
  obtain ⟨ext, hext⟩ := hierLoop_extends _ _ _ _ hloop
  constructor
  · rw [hext]
    simp
  · intro id
    exact mem_startNodes_nodup hnd id

/-- Witness for C5 (amended) at the graph `A → B` with isolated node `C`:
the first layer is exactly `[A]` (`B` is a sink, `C` is isolated). -/
theorem hierarchicy_first_layer_witness :
    ([["A"], ["B", "C"]] : List (List String)).head? =
      Option.some (startNodes
        [("A", ([] : List String)), ("B", ["A"]), ("C", ([] : List String))]
        [("A", ["B"]), ("B", ([] : List String)), ("C", ([] : List String))]) ∧
    (∀ id, id ∈ startNodes
        [("A", ([] : List String)), ("B", ["A"]), ("C", ([] : List String))]
        [("A", ["B"]), ("B", ([] : List String)), ("C", ([] : List String))] ↔
      id ∈ ([("A", ["B"]), ("B", ([] : List String)), ("C", ([] : List String))].map Prod.fst) ∧
        adj [("A", ["B"]), ("B", ([] : List String)), ("C", ([] : List String))] id ≠ [] ∧
        adj [("A", ([] : List String)), ("B", ["A"]), ("C", ([] : List String))] id = []) :=
  hierarchicy_first_layer
    [("A", ["B"]), ("B", ([] : List String)), ("C", ([] : List String))]
    [("A", ([] : List String)), ("B", ["A"]), ("C", ([] : List String))]
    (by decide) [["A"], ["B", "C"]] (by decide)

/-- C5 counterexample: for the acyclic dependency graph consisting of the
single isolated node `A`, `hierarchicy` returns `[[], [A]]`: the first layer
is empty even though `A` has an empty reverse adjacency, so the first layer
is not the set of nodes with no receive dependencies. -/
theorem hierarchicy_first_layer_counterexample :
    hierarchicy [("A", ([] : List String))] [("A", ([] : List String))] =
      .ok [[], ["A"]] ∧
    adj [("A", ([] : List String))] "A" = [] ∧
    ("A" : String) ∉ ([] : List String) := by
  refine ⟨by decide, rfl, by simp⟩

/-! ## Lemmas about `Parser.make_graph` -/

theorem procRecvs_error_eq {sr : List (String × SendRecv)} {nid : String} :
    ∀ (recvs : List (String × String))
      (acc : List (String × String) × List (String × List String) × List (String × List String))
      (e : PyErr), procRecvs sr nid recvs acc = .error e → e = .valueError brokenPipeMsg := by
  intro recvs
  induction recvs with
  | nil => intro acc e h; simp [procRecvs] at h
  | cons r t ih =>
      intro acc e h
      obtain ⟨p, v⟩ := r
      rw [procRecvs] at h
      split at h
      · injection h with h
        exact h.symm
      · split at h
        · exact ih _ e h
        · injection h with h
          exact h.symm

theorem procRecvs_bad {sr : List (String × SendRecv)} {nid : String} :
    ∀ (recvs : List (String × String))
      (acc : List (String × String) × List (String × List String) × List (String × List String))
      (r : String × String), r ∈ recvs → badRefB sr r = true →
      procRecvs sr nid recvs acc = .error (.valueError brokenPipeMsg) := by
  intro recvs
  induction recvs with
  | nil => intro acc r hr; simp at hr
  | cons q t ih =>
      intro acc r hr hbad
      obtain ⟨p, v⟩ := q
      rw [procRecvs]
      split
      · rfl
      · rename_i s hl
        split
        · rename_i hv
          rcases List.mem_cons.mp hr with h | h
          · subst h
            unfold badRefB at hbad
            rw [hl] at hbad
            simp only [decide_eq_true_eq] at hbad
            exact absurd hv hbad
          · exact ih _ r h hbad
        · rfl

theorem makeGraphLoop_bad {sr : List (String × SendRecv)} :
    ∀ (rem : List (String × SendRecv))
      (acc : List (String × String) × List (String × List String) × List (String × List String))
      (q : String × SendRecv) (r : String × String),
      q ∈ rem → r ∈ q.2.recv → badRefB sr r = true →
      makeGraphLoop sr rem acc = .error (.valueError brokenPipeMsg) := by
  intro rem
  induction rem with
  | nil => intro acc q r hq; simp at hq
  | cons w t ih =>
      intro acc q r hq hr hbad
      obtain ⟨mid, ms⟩ := w
      rw [makeGraphLoop]
      cases hp : procRecvs sr mid ms.recv acc with
      | error e =>
          have he := procRecvs_error_eq ms.recv acc e hp
          subst he
          rfl
      | ok acc' =>
          show makeGraphLoop sr t acc' = _
          rcases List.mem_cons.mp hq with h | h
          · subst h
            rw [procRecvs_bad ms.recv acc r hr hbad] at hp
            simp at hp
          · exact ih acc' q r h hr hbad

/-- C3: for every send/recv structure containing a recv reference
`(producerId, variableName)` such that no node `producerId` exists or that
node did not declare `variableName` as sent, `Parser.make_graph` raises the
"broken pipe" `ValueError`; since the result is an error, no edge list and no
adjacency maps are returned to the caller. -/
theorem make_graph_broken_pipe (sr : List (String × SendRecv))
    (hbad : ∃ q ∈ sr, ∃ r ∈ q.2.recv, badRefB sr r = true) :
    make_graph sr = .error (.valueError brokenPipeMsg) := by
  obtain ⟨q, hq, r, hr, hb⟩ := hbad
  exact makeGraphLoop_bad sr ([], initAdj sr, initAdj sr) q r hq hr hb

/-- Witness for C3: a single node receiving `(B, x)` from the non-existent
node `B` makes `make_graph` raise the broken-pipe error. -/
theorem make_graph_broken_pipe_witness :
    make_graph [("A", ⟨[], [("B", "x")]⟩)] = .error (.valueError brokenPipeMsg) :=
  make_graph_broken_pipe [("A", ⟨[], [("B", "x")]⟩)]
    ⟨("A", ⟨[], [("B", "x")]⟩), by simp, ("B", "x"), by simp, by decide⟩

theorem bump_keys (m : List (String × List String)) (k x : String) :
    (bump m k x).map Prod.fst = m.map Prod.fst := by
  induction m with
  | nil => rfl
  | cons p t ih =>
      obtain ⟨a, l⟩ := p
      by_cases ha : a = k
      · simp [bump, ha]
      · simp [bump, ha, ih]

theorem adj_bump_eq {m : List (String × List String)} {k : String} (x : String)
    (hk : k ∈ m.map Prod.fst) : adj (bump m k x) k = adj m k ++ [x] := by
  induction m with
  | nil => simp at hk
  | cons p t ih =>
      obtain ⟨a, l⟩ := p
      by_cases ha : a = k
      · subst ha
        simp [bump, adj, dlookup]
      · simp only [bump, if_neg ha]
        unfold adj dlookup
        rw [if_neg ha, if_neg ha]
        refine ih ?_
        simp only [List.map_cons, List.mem_cons] at hk
        rcases hk with h | h
        · exact absurd h.symm ha
        · exact h

theorem adj_bump_ne {m : List (String × List String)} {k u : String} (x : String)
    (hne : u ≠ k) : adj (bump m k x) u = adj m u := by
  induction m with
  | nil => rfl
  | cons p t ih =>
      obtain ⟨a, l⟩ := p
      by_cases ha : a = k
      · subst ha
        have hau : a ≠ u := fun h => hne h.symm
        simp [bump, adj, dlookup, hau]
      · by_cases hau : a = u
        · subst hau
          simp [bump, ha, adj, dlookup]
        · simp only [bump, if_neg ha]
          unfold adj dlookup
          rw [if_neg hau, if_neg hau]
          exact ih

theorem initAdj_keys (sr : List (String × SendRecv)) :
    (initAdj sr).map Prod.fst = sr.map Prod.fst := by
  induction sr with
  | nil => rfl
  | cons p t ih => simp [initAdj]

theorem adj_initAdj (sr : List (String × SendRecv)) (u : String) :
    adj (initAdj sr) u = [] := by
  induction sr with
  | nil => rfl
  | cons p t ih =>
      obtain ⟨k, s⟩ := p
      by_cases hk : k = u
      · simp [initAdj, adj, dlookup, hk]
      · simp only [initAdj, List.map_cons]
        unfold adj dlookup
        rw [if_neg hk]
        exact ih

theorem procRecvs_counts {sr : List (String × SendRecv)} {nid : String} :
    ∀ (recvs : List (String × String))
      (acc acc' : List (String × String) × List (String × List String) × List (String × List String)),
      procRecvs sr nid recvs acc = .ok acc' →
      acc.2.1.map Prod.fst = sr.map Prod.fst →
      acc.2.2.map Prod.fst = sr.map Prod.fst →
      nid ∈ sr.map Prod.fst →
      (∀ u v, countOcc v (adj acc.2.1 u) = countOcc (u, v) acc.1 ∧
        countOcc u (adj acc.2.2 v) = countOcc (u, v) acc.1) →
      acc'.2.1.map Prod.fst = sr.map Prod.fst ∧
      acc'.2.2.map Prod.fst = sr.map Prod.fst ∧
      (∀ u v, countOcc v (adj acc'.2.1 u) = countOcc (u, v) acc'.1 ∧
        countOcc u (adj acc'.2.2 v) = countOcc (u, v) acc'.1) := by
  intro recvs
  induction recvs with
  | nil =>
      intro acc acc' h h1 h2 _ h3
      simp only [procRecvs] at h
      injection h with h
      subst h
      exact ⟨h1, h2, h3⟩
  | cons r t ih =>
      intro acc acc' h h1 h2 hnid h3
      obtain ⟨p, v⟩ := r
      rw [procRecvs] at h
      split at h
      · simp at h
      · rename_i s hl
        split at h
        · rename_i hv
          have hp_keys : p ∈ sr.map Prod.fst :=
            List.mem_map.mpr ⟨(p, s), dlookup_mem hl, rfl⟩
          refine ih _ acc' h (by rw [bump_keys]; exact h1) (by rw [bump_keys]; exact h2)
            hnid ?_
          intro u w
          have hcount_es : countOcc (u, w) (acc.1 ++ [(p, nid)]) =
              countOcc (u, w) acc.1 + (if (p, nid) = (u, w) then 1 else 0) := by
            rw [countOcc_append, countOcc_singleton]
          constructor
          · -- forward adjacency count
            by_cases hu : u = p
            · subst hu
              rw [adj_bump_eq nid (h1 ▸ hp_keys), countOcc_append,
                countOcc_singleton, hcount_es, (h3 u w).1]
              congr 1
              split_ifs with ha hb hb
              · rfl
              · exact absurd (by rw [ha]) hb
              · injection hb with _ h2b
                exact absurd h2b ha
              · rfl
            · rw [adj_bump_ne nid hu, hcount_es, if_neg (fun hc => by
                injection hc with ha _
                exact hu ha.symm), (h3 u w).1]
              omega
          · -- reverse adjacency count
            by_cases hw : w = nid
            · subst hw
              rw [adj_bump_eq p (h2 ▸ hnid), countOcc_append,
                countOcc_singleton, hcount_es, (h3 u w).2]
              congr 1
              split_ifs with ha hb hb
              · rfl
              · exact absurd (by rw [ha]) hb
              · injection hb with h1b _
                exact absurd h1b ha
              · rfl
            · rw [adj_bump_ne p hw, hcount_es, if_neg (fun hc => by
                injection hc with _ hb
                exact hw hb.symm), (h3 u w).2]
              omega
        · simp at h

theorem procRecvs_es {sr : List (String × SendRecv)} {nid : String} :
    ∀ (recvs : List (String × String))
      (acc acc' : List (String × String) × List (String × List String) × List (String × List String)),
      procRecvs sr nid recvs acc = .ok acc' →
      acc'.1 = acc.1 ++ recvs.map (fun r => (r.1, nid)) := by
  intro recvs
  induction recvs with
  | nil =>
      intro acc acc' h
      simp only [procRecvs] at h
      injection h with h
      subst h
      simp
  | cons r t ih =>
      intro acc acc' h
      obtain ⟨p, v⟩ := r
      rw [procRecvs] at h
      split at h
      · simp at h
      · split at h
        · have := ih _ acc' h
          simp only at this
          rw [this]
          simp
        · simp at h

theorem makeGraphLoop_counts {sr : List (String × SendRecv)} :
    ∀ (rem : List (String × SendRecv))
      (acc t : List (String × String) × List (String × List String) × List (String × List String)),
      makeGraphLoop sr rem acc = .ok t →
      (∀ q ∈ rem, q.1 ∈ sr.map Prod.fst) →
      acc.2.1.map Prod.fst = sr.map Prod.fst →
      acc.2.2.map Prod.fst = sr.map Prod.fst →
      (∀ u v, countOcc v (adj acc.2.1 u) = countOcc (u, v) acc.1 ∧
        countOcc u (adj acc.2.2 v) = countOcc (u, v) acc.1) →
      t.1 = acc.1 ++ (rem.map (fun q => q.2.recv.map (fun r => (r.1, q.1)))).flatten ∧
      (∀ u v, countOcc v (adj t.2.1 u) = countOcc (u, v) t.1 ∧
        countOcc u (adj t.2.2 v) = countOcc (u, v) t.1) := by
  intro rem
  induction rem with
  | nil =>
      intro acc t h _ _ _ h3
      simp only [makeGraphLoop] at h
      injection h with h
      subst h
      exact ⟨by simp, h3⟩
  | cons w rest ih =>
      intro acc t h hkeys h1 h2 h3
      obtain ⟨mid, ms⟩ := w
      rw [makeGraphLoop] at h
      cases hp : procRecvs sr mid ms.recv acc with
      | error e => rw [hp] at h; simp [Bind.bind, Except.bind] at h
      | ok acc' =>
          rw [hp] at h
          have hstep := procRecvs_counts ms.recv acc acc' hp h1 h2
            (hkeys (mid, ms) (by simp)) h3
          have hes := procRecvs_es ms.recv acc acc' hp
          have hrec := ih acc' t (by exact h)
            (fun q hq => hkeys q (List.mem_cons_of_mem _ hq)) hstep.1 hstep.2.1 hstep.2.2
          refine ⟨?_, hrec.2⟩
          rw [hrec.1, hes]
          simp

/-- The three graph representations that `make_graph` returns, when it
returns: the edge list is one `(producer, consumer)` pair per validated recv
reference, and the forward and reverse adjacency lists record every reference
with the same multiplicity as the edge list (nothing is collapsed). -/
theorem make_graph_ok_spec (sr : List (String × SendRecv))
    (t : List (String × String) × List (String × List String) × List (String × List String))
    (hok : make_graph sr = .ok t) :
    t.1 = edgesOf sr ∧
    ∀ u v, countOcc v (adj t.2.1 u) = countOcc (u, v) t.1 ∧
      countOcc u (adj t.2.2 v) = countOcc (u, v) t.1 := by
  have := makeGraphLoop_counts sr ([], initAdj sr, initAdj sr) t hok
    (fun q hq => List.mem_map.mpr ⟨q, hq, rfl⟩)
    (initAdj_keys sr) (initAdj_keys sr)
    (by
      intro u v
      rw [adj_initAdj, adj_initAdj]
      simp [countOcc])
  obtain ⟨h1, h2⟩ := this
  refine ⟨?_, h2⟩
  rw [h1]
  rfl

/-- C9 (amended): when two nodes are connected by multiple validated
references (distinct tokens), the edge list contains one `(u, v)` tuple per
reference, and — contrary to the original claim — the forward adjacency list
`graph_send[u]` and the reverse adjacency list `graph_recv[v]` also contain
one entry per reference rather than a single collapsed entry: the
multiplicity of `v` in `graph_send[u]` and of `u` in `graph_recv[v]` both
equal the multiplicity of `(u, v)` in the edge list. -/
theorem make_graph_parallel_edges (sr : List (String × SendRecv))
    (t : List (String × String) × List (String × List String) × List (String × List String))
    (hok : make_graph sr = .ok t) :
    t.1 = edgesOf sr ∧
    ∀ u v, countOcc v (adj t.2.1 u) = countOcc (u, v) t.1 ∧
      countOcc u (adj t.2.2 v) = countOcc (u, v) t.1 :=
  make_graph_ok_spec sr t hok

/-- Witness for C9 (amended): node `Q` receives two tokens from `P`; the edge
list holds two `(P, Q)` edges and both adjacency lists hold two entries. -/
theorem make_graph_parallel_edges_witness :
    ([("P", "Q"), ("P", "Q")] : List (String × String)) =
      edgesOf [("P", ⟨["a", "b"], []⟩), ("Q", ⟨[], [("P", "a"), ("P", "b")]⟩)] ∧
    ∀ u v, countOcc v (adj [("P", ["Q", "Q"]), ("Q", ([] : List String))] u) =
        countOcc (u, v) ([("P", "Q"), ("P", "Q")] : List (String × String)) ∧
      countOcc u (adj [("P", ([] : List String)), ("Q", ["P", "P"])] v) =
        countOcc (u, v) ([("P", "Q"), ("P", "Q")] : List (String × String)) :=
  make_graph_parallel_edges [("P", ⟨["a", "b"], []⟩), ("Q", ⟨[], [("P", "a"), ("P", "b")]⟩)]
    ([("P", "Q"), ("P", "Q")],
      [("P", ["Q", "Q"]), ("Q", [])],
      [("P", []), ("Q", ["P", "P"])]) (by decide)

/-! ## Lemmas about the Token Resolver (`refTest`) -/

theorem pySplitAmp_no_amp {l : List Char} (h : '@' ∉ l) : pySplitAmp l = [l] := by
  induction l with
  | nil => rfl
  | cons c t ih =>
      have hc : ¬ (c = '@') := fun hcc => h (by simp [hcc])
      have ht : '@' ∉ t := fun htt => h (by simp [htt])
      simp only [pySplitAmp, if_neg hc, ih ht]
      rfl

theorem pySplitAmp_mid {pid nvar : List Char} (hp : '@' ∉ pid) (hv : '@' ∉ nvar) :
    pySplitAmp (pid ++ '@' :: nvar) = [pid, nvar] := by
  induction pid with
  | nil => simp [pySplitAmp, pySplitAmp_no_amp hv]
  | cons c t ih =>
      have hc : ¬ (c = '@') := fun hcc => hp (by simp [hcc])
      have ht : '@' ∉ t := fun htt => hp (by simp [htt])
      rw [List.cons_append]
      simp only [pySplitAmp, if_neg hc, ih ht]
      rfl

theorem dropWhile_no_ws {l : List Char} (h : ∀ c ∈ l, c.isWhitespace = false) :
    l.dropWhile Char.isWhitespace = l := by
  cases l with
  | nil => rfl
  | cons c t =>
      rw [List.dropWhile_cons, if_neg]
      simp [h c (by simp)]

theorem pyStrip_of_no_ws {l : List Char} (h : ∀ c ∈ l, c.isWhitespace = false) :
    pyStrip l = l := by
  unfold pyStrip
  rw [dropWhile_no_ws h, dropWhile_no_ws (fun c hc => h c (List.mem_reverse.mp hc)),
    List.reverse_reverse]

theorem count_amp_ref (pid nvar : List Char) (hp : '@' ∉ pid) (hv : '@' ∉ nvar) :
    (('@' :: (pid ++ '@' :: nvar)).count '@') = 2 := by
  simp only [List.count_cons, List.count_append]
  rw [List.count_eq_zero.mpr hp, List.count_eq_zero.mpr hv]
  simp

theorem refTest_wellformed (pid nvar : List Char) (hp : '@' ∉ pid) (hv : '@' ∉ nvar)
    (hwp : ∀ c ∈ pid, c.isWhitespace = false) (hwv : ∀ c ∈ nvar, c.isWhitespace = false) :
    refTest (PyVal.vstr (String.mk ('@' :: (pid ++ '@' :: nvar)))) =
      .ok (Option.some (String.mk pid, String.mk nvar)) := by
  have hws : ∀ c ∈ ('@' :: (pid ++ '@' :: nvar)), c.isWhitespace = false := by
    intro c hc
    rcases List.mem_cons.mp hc with h | h
    · subst h; decide
    · rcases List.mem_append.mp h with h | h
      · exact hwp c h
      · rcases List.mem_cons.mp h with h | h
        · subst h; decide
        · exact hwv c h
  have hsplit : pySplitAmp ('@' :: (pid ++ '@' :: nvar)) = [[], pid, nvar] := by
    simp [pySplitAmp, pySplitAmp_mid hp hv]
  simp only [refTest]
  rw [if_pos ⟨trivial, count_amp_ref pid nvar hp hv⟩]
  rw [pyStrip_of_no_ws hws, hsplit]
  rfl

theorem refTest_error {v : PyVal} {e : PyErr} (h : refTest v = .error e) :
    v = PyVal.vstr "" ∧ e = PyErr.indexError := by
  cases v with
  | vstr s =>
      obtain ⟨data⟩ := s
      cases data with
      | nil =>
          refine ⟨rfl, ?_⟩
          have h' : Except.error (α := Option (String × String)) PyErr.indexError =
              Except.error e := h
          injection h' with h'
          exact h'.symm
      | cons c cs =>
          simp only [refTest] at h
          split at h
          · simp at h
          · simp at h
  | vbool b => simp [refTest] at h
  | vint n => simp [refTest] at h
  | vnone => simp [refTest] at h

/-- C6 (amended): for every nonempty value at the three reference-test sites,
the Token Resolver classifies it as a reference iff it is a string whose
first character is `@` with exactly two `@` characters in total; a
well-formed reference `@pid@var` (no stray `@`, no whitespace) is split into
`(pid, var)`; and every other nonempty value is treated as a literal and
ignored without error.  The empty string is the one exception the original
claim misses: it is not classified as a reference, but instead of being
ignored it raises `IndexError` (see the counterexample). -/
theorem refTest_classification (v : PyVal) (hne : v ≠ PyVal.vstr "") :
    ((∃ pr, refTest v = .ok (Option.some pr)) ↔ specIsRefB v = true) ∧
    (specIsRefB v = false → refTest v = .ok Option.none) ∧
    (∀ pid nvar : List Char, '@' ∉ pid → '@' ∉ nvar →
      (∀ c ∈ pid, c.isWhitespace = false) → (∀ c ∈ nvar, c.isWhitespace = false) →
      v = PyVal.vstr (String.mk ('@' :: (pid ++ '@' :: nvar))) →
      refTest v = .ok (Option.some (String.mk pid, String.mk nvar))) := by
  refine ⟨?_, ?_, ?_⟩
  · cases v with
    | vstr s =>
        obtain ⟨data⟩ := s
        cases data with
        | nil => exact absurd rfl hne
        | cons c cs =>
            simp only [refTest, specIsRefB]
            by_cases hcond : c = '@' ∧ List.count '@' (c :: cs) = 2
            · rw [if_pos hcond]
              constructor
              · intro _
                obtain ⟨hc1, hc2⟩ := hcond
                subst hc1
                have h2 := hc2
                rw [List.count_cons] at h2
                simp at h2
                simp
                omega
              · intro _
                exact ⟨_, rfl⟩
            · rw [if_neg hcond]
              constructor
              · rintro ⟨pr, hpr⟩
                simp at hpr
              · intro hspec
                exfalso
                apply hcond
                simp only [List.headD_cons, Bool.and_eq_true, decide_eq_true_eq] at hspec
                exact ⟨hspec.1.1, hspec.2⟩
    | vbool b => simp [refTest, specIsRefB]
    | vint n => simp [refTest, specIsRefB]
    | vnone => simp [refTest, specIsRefB]
  · intro hspec
    cases v with
    | vstr s =>
        obtain ⟨data⟩ := s
        cases data with
        | nil => exact absurd rfl hne
        | cons c cs =>
            simp only [refTest]
            rw [if_neg]
            intro hcond
            rw [show specIsRefB (PyVal.vstr (String.mk (c :: cs))) =
              (decide (c = '@') && decide (List.count '@' (c :: cs) = 2)) from by
                simp [specIsRefB]] at hspec
            simp only [Bool.and_eq_false_iff, decide_eq_false_iff_not] at hspec
            rcases hspec with h | h
            · exact h hcond.1
            · exact h hcond.2
    | vbool b => simp [refTest]
    | vint n => simp [refTest]
    | vnone => simp [refTest]
  · intro pid nvar hp hv hwp hwv hveq
    subst hveq
    exact refTest_wellformed pid nvar hp hv hwp hwv

/-- Witness for C6 (amended) at the reference string `"@A@x"`. -/
theorem refTest_classification_witness :
    ((∃ pr, refTest (PyVal.vstr "@A@x") = .ok (Option.some pr)) ↔
      specIsRefB (PyVal.vstr "@A@x") = true) ∧
    (specIsRefB (PyVal.vstr "@A@x") = false →
      refTest (PyVal.vstr "@A@x") = .ok Option.none) ∧
    (∀ pid nvar : List Char, '@' ∉ pid → '@' ∉ nvar →
      (∀ c ∈ pid, c.isWhitespace = false) → (∀ c ∈ nvar, c.isWhitespace = false) →
      PyVal.vstr "@A@x" = PyVal.vstr (String.mk ('@' :: (pid ++ '@' :: nvar))) →
      refTest (PyVal.vstr "@A@x") = .ok (Option.some (String.mk pid, String.mk nvar))) :=
  refTest_classification (PyVal.vstr "@A@x") (by decide)

/-- C6 counterexample: the empty string is, by the claim's criterion, not a
reference, yet the resolver does not treat it as an ignored literal — the
reference test evaluates `val[0]` first and raises `IndexError`. -/
theorem refTest_classification_counterexample :
    specIsRefB (PyVal.vstr "") = false ∧
    refTest (PyVal.vstr "") = .error PyErr.indexError :=
  ⟨by decide, by decide⟩

/-! ## Lemmas about the extraction pass of `Parser.serialize` -/

theorem except_bind_ok {ε α β : Type} (a : α) (f : α → Except ε β) :
    (Except.ok a >>= f) = f a := rfl

theorem except_bind_err {ε α β : Type} (e : ε) (f : α → Except ε β) :
    ((Except.error e : Except ε α) >>= f) = Except.error e := rfl

theorem except_pure {ε α : Type} (a : α) : (pure a : Except ε α) = Except.ok a := rfl

theorem validateKeys_ok {id : String} {nb : NodeB}
    (h : nb.hasName ∧ nb.hasLibrary ∧ nb.keysOK) : validateKeys id nb = .ok () := by
  unfold validateKeys
  simp [h.1, h.2.1, h.2.2]

theorem recvsOf_error_eq :
    ∀ {l : List (String × PyVal)} {e : PyErr}, recvsOf l = .error e → e = PyErr.indexError := by
  intro l
  induction l with
  | nil => intro e h; simp [recvsOf] at h
  | cons p t ih =>
      intro e h
      obtain ⟨k, val⟩ := p
      rw [recvsOf] at h
      cases hr : refTest val with
      | error e1 =>
          rw [hr] at h
          simp only [Bind.bind, Except.bind] at h
          injection h with h
          exact h ▸ (refTest_error hr).2
      | ok r =>
          rw [hr] at h
          simp only [Bind.bind, Except.bind] at h
          cases hrest : recvsOf t with
          | error e2 =>
              rw [hrest] at h
              injection h with h
              exact h ▸ ih hrest
          | ok rest =>
              rw [hrest] at h
              cases r with
              | none => simp at h
              | some pr => simp at h

theorem recvsOf_emptyStr :
    ∀ {l : List (String × PyVal)}, PyVal.vstr "" ∈ l.map Prod.snd →
      recvsOf l = .error PyErr.indexError := by
  intro l
  induction l with
  | nil => intro h; simp at h
  | cons p t ih =>
      intro hmem
      obtain ⟨k, val⟩ := p
      rw [recvsOf]
      cases hr : refTest val with
      | error e1 =>
          have he := (refTest_error hr).2
          subst he
          rfl
      | ok r =>
          have hval : val ≠ PyVal.vstr "" := by
            intro hv
            subst hv
            rw [show refTest (PyVal.vstr "") = .error PyErr.indexError from rfl] at hr
            simp at hr
          have hmem' : PyVal.vstr "" ∈ t.map Prod.snd := by
            simp only [List.map_cons, List.mem_cons] at hmem
            rcases hmem with h | h
            · exact absurd h.symm hval
            · exact h
          rw [ih hmem']
          rfl

theorem wioOf_error_eq :
    ∀ {l : List (String × PyVal)} {e : PyErr}, wioOf l = .error e → e = PyErr.indexError := by
  intro l
  induction l with
  | nil => intro e h; simp [wioOf] at h
  | cons p t ih =>
      intro e h
      obtain ⟨k, val⟩ := p
      rw [wioOf] at h
      cases hr : refTest val with
      | error e1 =>
          rw [hr] at h
          simp only [Bind.bind, Except.bind] at h
          injection h with h
          exact h ▸ (refTest_error hr).2
      | ok r =>
          rw [hr] at h
          simp only [Bind.bind, Except.bind] at h
          cases hrest : wioOf t with
          | error e2 =>
              rw [hrest] at h
              injection h with h
              exact h ▸ ih hrest
          | ok rest =>
              rw [hrest] at h
              cases r with
              | none =>
                  by_cases hb : val = PyVal.vbool true
                  · simp [hb] at h
                  · simp [hb] at h
              | some pr => simp at h

theorem wioOf_emptyStr :
    ∀ {l : List (String × PyVal)}, PyVal.vstr "" ∈ l.map Prod.snd →
      wioOf l = .error PyErr.indexError := by
  intro l
  induction l with
  | nil => intro h; simp at h
  | cons p t ih =>
      intro hmem
      obtain ⟨k, val⟩ := p
      rw [wioOf]
      cases hr : refTest val with
      | error e1 =>
          have he := (refTest_error hr).2
          subst he
          rfl
      | ok r =>
          have hval : val ≠ PyVal.vstr "" := by
            intro hv
            subst hv
            rw [show refTest (PyVal.vstr "") = .error PyErr.indexError from rfl] at hr
            simp at hr
          have hmem' : PyVal.vstr "" ∈ t.map Prod.snd := by
            simp only [List.map_cons, List.mem_cons] at hmem
            rcases hmem with h | h
            · exact absurd h.symm hval
            · exact h
          rw [ih hmem']
          rfl

theorem extractNode_error_eq {id : String} {nb : NodeB} {e : PyErr}
    (hval : nb.hasName ∧ nb.hasLibrary ∧ nb.keysOK)
    (h : extractNode id nb = .error e) : e = PyErr.indexError := by
  unfold extractNode at h
  rw [validateKeys_ok hval, except_bind_ok] at h
  cases h1 : recvsOf (nb.inputs.getD []) with
  | error e1 =>
      rw [h1, except_bind_err] at h
      injection h with h
      exact h ▸ recvsOf_error_eq h1
  | ok r1 =>
      rw [h1, except_bind_ok] at h
      cases h2 : wioOf (nb.wrapper_io.getD []) with
      | error e2 =>
          rw [h2, except_bind_err] at h
          injection h with h
          exact h ▸ wioOf_error_eq h2
      | ok p2 =>
          rw [h2, except_bind_ok] at h
          cases hm : nb.method with
          | none =>
              rw [hm] at h
              simp [pure, Except.pure, Bind.bind, Except.bind] at h
          | some m =>
              rw [hm] at h
              dsimp only at h
              cases h3 : recvsOf (m.minputs.getD []) with
              | error e3 =>
                  rw [h3, except_bind_err] at h
                  injection h with h
                  exact h ▸ recvsOf_error_eq h3
              | ok r3 =>
                  rw [h3, except_bind_ok, except_pure, except_bind_ok] at h
                  simp at h

theorem extractNode_ok_no_empty {id : String} {nb : NodeB} {sr : SendRecv}
    (h : extractNode id nb = .ok sr) : hasEmptyStrValB nb = false := by
  unfold extractNode at h
  cases hvk : validateKeys id nb with
  | error e => rw [hvk, except_bind_err] at h; simp at h
  | ok u =>
      rw [hvk, except_bind_ok] at h
      cases h1 : recvsOf (nb.inputs.getD []) with
      | error e1 => rw [h1, except_bind_err] at h; simp at h
      | ok r1 =>
          rw [h1, except_bind_ok] at h
          cases h2 : wioOf (nb.wrapper_io.getD []) with
          | error e2 => rw [h2, except_bind_err] at h; simp at h
          | ok p2 =>
              rw [h2, except_bind_ok] at h
              have hin : PyVal.vstr "" ∉ (nb.inputs.getD []).map Prod.snd := by
                intro hmem
                rw [recvsOf_emptyStr hmem] at h1
                simp at h1
              have hwio : PyVal.vstr "" ∉ (nb.wrapper_io.getD []).map Prod.snd := by
                intro hmem
                rw [wioOf_emptyStr hmem] at h2
                simp at h2
              unfold hasEmptyStrValB
              cases hm : nb.method with
              | none => simp [hin, hwio]
              | some m =>
                  rw [hm] at h
                  dsimp only at h
                  cases h3 : recvsOf (m.minputs.getD []) with
                  | error e3 => rw [h3, except_bind_err] at h; simp at h
                  | ok r3 =>
                      have hmin : PyVal.vstr "" ∉ (m.minputs.getD []).map Prod.snd := by
                        intro hmem
                        rw [recvsOf_emptyStr hmem] at h3
                        simp at h3
                      simp [hin, hwio, hmin]

theorem extract_emptyStr :
    ∀ (doc : List (String × NodeB)),
      (∀ p ∈ doc, p.2.hasName ∧ p.2.hasLibrary ∧ p.2.keysOK) →
      (∃ p ∈ doc, hasEmptyStrValB p.2 = true) →
      extract doc = .error PyErr.indexError := by
  intro doc
  induction doc with
  | nil =>
      intro _ hbad
      simp at hbad
  | cons p t ih =>
      intro hvalid hbad
      obtain ⟨id, nb⟩ := p
      rw [extract]
      cases hn : extractNode id nb with
      | error e =>
          have he := extractNode_error_eq (hvalid (id, nb) (by simp)) hn
          subst he
          rfl
      | ok sr =>
          have hnotbad := extractNode_ok_no_empty hn
          have hbad' : ∃ q ∈ t, hasEmptyStrValB q.2 = true := by
            obtain ⟨q, hq, hqb⟩ := hbad
            rcases List.mem_cons.mp hq with h | h
            · subst h
              rw [hnotbad] at hqb
              simp at hqb
            · exact ⟨q, h, hqb⟩
          rw [ih (fun q hq => hvalid q (List.mem_cons_of_mem _ hq)) hbad']
          rfl

/-- C10 (amended): for every document all of whose nodes pass key validation
and which contains a node with the empty string as a value of its `inputs`,
`wrapper_io` or `method.inputs` mapping, `Parser.serialize` raises
`IndexError`: the reference test reads `val[0]` before any emptiness check.
(The original claim omitted the key-validation condition: a key-validation
failure in a node at or before the offending one raises `ValueError` first —
see the counterexample.) -/
theorem serialize_empty_string_indexError (doc : List (String × NodeB))
    (hvalid : ∀ p ∈ doc, p.2.hasName ∧ p.2.hasLibrary ∧ p.2.keysOK)
    (hbad : ∃ p ∈ doc, hasEmptyStrValB p.2 = true) :
    serialize doc = .error PyErr.indexError := by
  unfold serialize
  rw [extract_emptyStr doc hvalid hbad]
  rfl

/-- Witness for C10 (amended): a single valid node whose input value is the
empty string makes `serialize` raise `IndexError`. -/
theorem serialize_empty_string_indexError_witness :
    serialize [("1", ⟨true, true, true, Option.some [("a", PyVal.vstr "")],
      Option.none, Option.none, Option.none⟩)] = .error PyErr.indexError :=
  serialize_empty_string_indexError
    [("1", ⟨true, true, true, Option.some [("a", PyVal.vstr "")],
      Option.none, Option.none, Option.none⟩)]
    (by decide)
    ⟨("1", ⟨true, true, true, Option.some [("a", PyVal.vstr "")],
      Option.none, Option.none, Option.none⟩), by simp, by decide⟩

/-- C10 counterexample: a document containing a node whose `inputs` has the
empty string as a value, but which fails key validation (its `name` key is
missing), raises `ValueError` from `validate_keys`, not `IndexError` — the
claim as stated, quantifying over every document containing such a node, is
therefore false. -/
theorem serialize_empty_string_counterexample :
    serialize [("1", ⟨false, true, true, Option.some [("a", PyVal.vstr "")],
      Option.none, Option.none, Option.none⟩)] =
      .error (.valueError
        "The input json is not valid. @node ID#1: name of class/function is missing.") ∧
    PyErr.valueError
        "The input json is not valid. @node ID#1: name of class/function is missing." ≠
      PyErr.indexError :=
  ⟨rfl, by decide⟩

/-- C9 counterexample: node `B` receives the two distinct tokens `(A, x)` and
`(A, y)`; `graph_send[A]` is `[B, B]` — two entries for the pair, not a
single collapsed adjacency entry as the claim states (`graph_recv[B]` is
likewise `[A, A]`), while the edge list has one `(A, B)` tuple per
reference. -/
theorem make_graph_parallel_edges_counterexample :
    make_graph [("A", ⟨["x", "y"], []⟩), ("B", ⟨[], [("A", "x"), ("A", "y")]⟩)] =
      .ok ([("A", "B"), ("A", "B")],
        [("A", ["B", "B"]), ("B", [])],
        [("A", []), ("B", ["A", "A"])]) ∧
    countOcc "B" (adj [("A", ["B", "B"]), ("B", ([] : List String))] "A") ≠ 1 :=
  ⟨by decide, by decide⟩

/-! ## The data exchange (`Stack`) -/

/-- C4 (code bug): in the source, `Stack.push` and `Stack.pull` have `pass`
bodies — `push` stores nothing (the state is unchanged) and `pull` returns
`None` for every token, so a `pull` after a `push` of 42 yields `None`
instead of the stored value, no error is raised for a missing token, and a
double `push` succeeds silently.  This contradicts the methods' own
docstrings ("stores the sent data", "returns the data for a token"). -/
theorem stack_push_pull_returns_none :
    (Stack.push ⟨[]⟩ ("A", "x") (PyVal.vint 42)).1 = (⟨[]⟩ : Stack) ∧
    ((Stack.push ⟨[]⟩ ("A", "x") (PyVal.vint 42)).1.pull ("A", "x")).2 = PyVal.vnone ∧
    PyVal.vnone ≠ PyVal.vint 42 :=
  ⟨rfl, rfl, by decide⟩

/-! ## Lemmas about the dead-output pruning pass -/

theorem pruneApply_nil (doc : List (String × NodeB)) (sr : List (String × SendRecv)) :
    pruneApply doc sr [] = (doc, sr) := rfl

theorem redundantOf_eq_nil {sr : List (String × SendRecv)}
    (h : ∀ p ∈ allSent sr, p ∈ allReceived sr) : redundantOf sr = [] := by
  unfold redundantOf
  rw [List.filter_eq_nil_iff]
  intro a ha
  simp [h a ha]

/-- C7 (amended): on a send/recv structure in which every sent pair is
targeted by some recv reference (every send not so targeted has already been
flipped off), the redundancy set is empty and the pruning pass changes
neither the document nor the send/recv structure; running the pass on such a
document returns it unchanged.  (In general, running the pass a second time
on the document produced by a first run is NOT a no-op — see the
counterexample — because pruning can overwrite a reference-valued
`wrapper_io` entry, destroying a recv and exposing new redundant sends.) -/
theorem prune_noop_of_all_received (doc : List (String × NodeB))
    (sr : List (String × SendRecv)) (hex : extract doc = .ok sr)
    (hcons : ∀ p ∈ allSent sr, p ∈ allReceived sr) :
    pruneApply doc sr (redundantOf sr) = (doc, sr) ∧ pruneOnce doc = .ok doc := by
  have hnil := redundantOf_eq_nil hcons
  constructor
  · rw [hnil, pruneApply_nil]
  · unfold pruneOnce
    rw [hex]
    show Except.ok (pruneApply doc sr (redundantOf sr)).1 = Except.ok doc
    rw [hnil, pruneApply_nil]

/-- Witness for C7 (amended): node `A` sends `y`, node `B` receives it; every
send is received, so pruning is a no-op. -/
theorem prune_noop_of_all_received_witness :
    pruneApply
      [("A", ⟨true, true, true, Option.none,
        Option.some [("y", PyVal.vbool true)], Option.none, Option.none⟩),
       ("B", ⟨true, true, true, Option.some [("d", PyVal.vstr "@A@y")],
        Option.none, Option.none, Option.none⟩)]
      [("A", ⟨["y"], []⟩), ("B", ⟨[], [("A", "y")]⟩)]
      (redundantOf [("A", ⟨["y"], []⟩), ("B", ⟨[], [("A", "y")]⟩)]) =
      ([("A", ⟨true, true, true, Option.none,
        Option.some [("y", PyVal.vbool true)], Option.none, Option.none⟩),
       ("B", ⟨true, true, true, Option.some [("d", PyVal.vstr "@A@y")],
        Option.none, Option.none, Option.none⟩)],
       [("A", ⟨["y"], []⟩), ("B", ⟨[], [("A", "y")]⟩)]) ∧
    pruneOnce
      [("A", ⟨true, true, true, Option.none,
        Option.some [("y", PyVal.vbool true)], Option.none, Option.none⟩),
       ("B", ⟨true, true, true, Option.some [("d", PyVal.vstr "@A@y")],
        Option.none, Option.none, Option.none⟩)] = .ok
      [("A", ⟨true, true, true, Option.none,
        Option.some [("y", PyVal.vbool true)], Option.none, Option.none⟩),
       ("B", ⟨true, true, true, Option.some [("d", PyVal.vstr "@A@y")],
        Option.none, Option.none, Option.none⟩)] :=
  prune_noop_of_all_received _ _ (by decide) (by decide)

/-- C7 counterexample: the pruning pass is not idempotent.  In the document
below, `A` sends `y` (received by `B` through its `wrapper_io`) and `B`
declares the unreceived output `x` while its `wrapper_io` also has an entry
under the key `x`.  The first pass flips `B.outputs[x]` AND overwrites
`B.wrapper_io[x]` — destroying the reference `"@A@y"` stored there; the
second pass therefore finds `A`'s send `y` unreceived and flips
`A.outputs[y]`, changing the already-pruned document again. -/
theorem prune_not_idempotent :
    pruneOnce
      [("A", ⟨true, true, true, Option.none,
        Option.some [("y", PyVal.vbool true)], Option.none, Option.none⟩),
       ("B", ⟨true, true, true, Option.none,
        Option.some [("x", PyVal.vbool true)],
        Option.some [("x", PyVal.vstr "@A@y")], Option.none⟩)] = .ok
      [("A", ⟨true, true, true, Option.none,
        Option.some [("y", PyVal.vbool true)], Option.none, Option.none⟩),
       ("B", ⟨true, true, true, Option.none,
        Option.some [("x", PyVal.vbool false)],
        Option.some [("x", PyVal.vbool false)], Option.none⟩)] ∧
    pruneOnce
      [("A", ⟨true, true, true, Option.none,
        Option.some [("y", PyVal.vbool true)], Option.none, Option.none⟩),
       ("B", ⟨true, true, true, Option.none,
        Option.some [("x", PyVal.vbool false)],
        Option.some [("x", PyVal.vbool false)], Option.none⟩)] = .ok
      [("A", ⟨true, true, true, Option.none,
        Option.some [("y", PyVal.vbool false)], Option.none, Option.none⟩),
       ("B", ⟨true, true, true, Option.none,
        Option.some [("x", PyVal.vbool false)],
        Option.some [("x", PyVal.vbool false)], Option.none⟩)] ∧
    ([("A", (⟨true, true, true, Option.none,
        Option.some [("y", PyVal.vbool true)], Option.none, Option.none⟩ : NodeB)),
       ("B", ⟨true, true, true, Option.none,
        Option.some [("x", PyVal.vbool false)],
        Option.some [("x", PyVal.vbool false)], Option.none⟩)] :
      List (String × NodeB)) ≠
      [("A", ⟨true, true, true, Option.none,
        Option.some [("y", PyVal.vbool false)], Option.none, Option.none⟩),
       ("B", ⟨true, true, true, Option.none,
        Option.some [("x", PyVal.vbool false)],
        Option.some [("x", PyVal.vbool false)], Option.none⟩)] :=
  ⟨rfl, rfl, by decide⟩

theorem countOcc_eraseFirst_self : ∀ (l : List String) (v : String),
    countOcc v (eraseFirst l v) = countOcc v l - 1 := by
  intro l v
  induction l with
  | nil => rfl
  | cons x t ih =>
      by_cases hx : x = v
      · rw [show eraseFirst (x :: t) v = t from by simp [eraseFirst, hx]]
        simp only [countOcc, if_pos hx]
        omega
      · rw [show eraseFirst (x :: t) v = x :: eraseFirst t v from by simp [eraseFirst, hx]]
        simp only [countOcc, ih]
        rw [if_neg hx]
        omega

theorem countOcc_eraseFirst_ne {w v : String} (h : w ≠ v) :
    ∀ (l : List String), countOcc w (eraseFirst l v) = countOcc w l := by
  intro l
  induction l with
  | nil => rfl
  | cons x t ih =>
      by_cases hx : x = v
      · rw [show eraseFirst (x :: t) v = t from by simp [eraseFirst, hx]]
        simp only [countOcc]
        have hxw : ¬ (x = w) := by
          intro hc
          rw [hc] at hx
          exact h hx
        rw [if_neg hxw]
        omega
      · rw [show eraseFirst (x :: t) v = x :: eraseFirst t v from by simp [eraseFirst, hx]]
        simp only [countOcc, ih]

theorem updateSR_dlookup_self (sr : List (String × SendRecv)) (id var : String) :
    dlookup (updateSR sr id var) id =
      (dlookup sr id).map (fun s => ⟨eraseFirst s.send var, s.recv⟩) := by
  induction sr with
  | nil => rfl
  | cons p t ih =>
      obtain ⟨k, s⟩ := p
      by_cases hk : k = id
      · subst hk
        simp [updateSR, dlookup]
      · simp [updateSR, hk, dlookup, ih]

theorem updateSR_dlookup_ne {p id : String} (h : p ≠ id)
    (sr : List (String × SendRecv)) (var : String) :
    dlookup (updateSR sr id var) p = dlookup sr p := by
  induction sr with
  | nil => rfl
  | cons q t ih =>
      obtain ⟨k, s⟩ := q
      by_cases hk : k = id
      · subst hk
        have hkp : ¬ (k = p) := fun hc => h hc.symm
        simp [updateSR, dlookup, hkp]
      · by_cases hp : k = p
        · subst hp
          simp [updateSR, hk, dlookup]
        · simp [updateSR, hk, dlookup, hp, ih]

theorem updateSR_keys (sr : List (String × SendRecv)) (id var : String) :
    (updateSR sr id var).map Prod.fst = sr.map Prod.fst := by
  induction sr with
  | nil => rfl
  | cons p t ih =>
      obtain ⟨k, s⟩ := p
      by_cases hk : k = id
      · simp [updateSR, hk]
      · simp [updateSR, hk, ih]

theorem allReceived_updateSR (sr : List (String × SendRecv)) (id var : String) :
    allReceived (updateSR sr id var) = allReceived sr := by
  induction sr with
  | nil => rfl
  | cons p t ih =>
      obtain ⟨k, s⟩ := p
      by_cases hk : k = id
      · simp [updateSR, hk, allReceived]
      · simp only [updateSR, if_neg hk]
        have h1 : allReceived ((k, s) :: updateSR t id var) =
            s.recv ++ allReceived (updateSR t id var) := by simp [allReceived]
        have h2 : allReceived ((k, s) :: t) = s.recv ++ allReceived t := by simp [allReceived]
        rw [h1, h2, ih]

theorem srSend_updateSR_self (sr : List (String × SendRecv)) (id var : String) :
    srSend (updateSR sr id var) id = eraseFirst (srSend sr id) var := by
  unfold srSend
  rw [updateSR_dlookup_self]
  cases dlookup sr id with
  | none => rfl
  | some s => rfl

theorem srSend_updateSR_ne {p id : String} (h : p ≠ id)
    (sr : List (String × SendRecv)) (var : String) :
    srSend (updateSR sr id var) p = srSend sr p := by
  unfold srSend
  rw [updateSR_dlookup_ne h]

theorem pruneSRAll_send_zero {p v : String} :
    ∀ (red : List (String × String)) (sr : List (String × SendRecv)),
      countOcc v (srSend sr p) ≤ countOcc (p, v) red →
      countOcc v (srSend (pruneSRAll sr red) p) = 0 := by
  intro red
  induction red with
  | nil =>
      intro sr h
      simp only [countOcc] at h
      simpa [pruneSRAll] using h
  | cons r t ih =>
      intro sr h
      obtain ⟨id, w⟩ := r
      rw [pruneSRAll]
      refine ih (updateSR sr id w) ?_
      simp only [countOcc] at h
      by_cases hid : id = p
      · subst hid
        by_cases hw : w = v
        · subst hw
          rw [srSend_updateSR_self, countOcc_eraseFirst_self]
          simp at h
          omega
        · rw [srSend_updateSR_self, countOcc_eraseFirst_ne (fun hc => hw hc.symm)]
          have hne : ¬ (((id, w) : String × String) = (id, v)) := by simp [hw]
          rw [if_neg hne] at h
          omega
      · rw [srSend_updateSR_ne (fun hc => hid hc.symm)]
        have hne : ¬ (((id, w) : String × String) = (p, v)) := by simp [hid]
        rw [if_neg hne] at h
        omega

theorem allReceived_pruneSRAll :
    ∀ (red : List (String × String)) (sr : List (String × SendRecv)),
      allReceived (pruneSRAll sr red) = allReceived sr := by
  intro red
  induction red with
  | nil => intro sr; rfl
  | cons r t ih =>
      intro sr
      obtain ⟨id, w⟩ := r
      rw [pruneSRAll, ih, allReceived_updateSR]

theorem pruneSRAll_keys :
    ∀ (red : List (String × String)) (sr : List (String × SendRecv)),
      (pruneSRAll sr red).map Prod.fst = sr.map Prod.fst := by
  intro red
  induction red with
  | nil => intro sr; rfl
  | cons r t ih =>
      intro sr
      obtain ⟨id, w⟩ := r
      rw [pruneSRAll, ih, updateSR_keys]

theorem countOcc_map_pair (k p v : String) (l : List String) :
    countOcc (p, v) (l.map (fun tok => (k, tok))) = if k = p then countOcc v l else 0 := by
  induction l with
  | nil => simp [countOcc]
  | cons x t ih =>
      simp only [List.map_cons, countOcc, ih]
      by_cases hk : k = p
      · subst hk
        by_cases hx : x = v
        · simp [hx]
        · simp [hx, Prod.ext_iff]
      · simp [hk, Prod.ext_iff]

theorem allSent_fst_mem {sr : List (String × SendRecv)} {q : String × String}
    (h : q ∈ allSent sr) : q.1 ∈ sr.map Prod.fst := by
  induction sr with
  | nil => simp [allSent] at h
  | cons p t ih =>
      obtain ⟨k, s⟩ := p
      simp only [allSent, List.map_cons, List.flatten_cons, List.mem_append] at h
      rcases h with h | h
      · obtain ⟨tok, _, htok⟩ := List.mem_map.mp h
        simp [← htok]
      · exact List.mem_cons_of_mem _ (ih h)

theorem countOcc_allSent_nodup :
    ∀ {sr : List (String × SendRecv)}, (sr.map Prod.fst).Nodup → ∀ (p v : String),
      countOcc (p, v) (allSent sr) = countOcc v (srSend sr p) := by
  intro sr
  induction sr with
  | nil => intro _ p v; rfl
  | cons q t ih =>
      intro hnd p v
      obtain ⟨k, s⟩ := q
      simp only [List.map_cons, List.nodup_cons] at hnd
      have hcons : allSent ((k, s) :: t) = s.send.map (fun tok => (k, tok)) ++ allSent t := by
        simp [allSent]
      rw [hcons, countOcc_append, countOcc_map_pair]
      by_cases hk : k = p
      · subst hk
        rw [if_pos rfl]
        have hzero : countOcc (k, v) (allSent t) = 0 := by
          rw [countOcc_eq_zero]
          intro hmem
          exact hnd.1 (allSent_fst_mem hmem)
        have hsend : srSend ((k, s) :: t) k = s.send := by simp [srSend, dlookup]
        rw [hzero, hsend]
        omega
      · rw [if_neg hk]
        have hsend : srSend ((k, s) :: t) p = srSend t p := by
          simp [srSend, dlookup, hk]
        rw [hsend, ih hnd.2 p v]
        omega

theorem countOcc_filter {α : Type} [DecidableEq α] {pred : α → Bool} {a : α}
    (ha : pred a = true) : ∀ (l : List α), countOcc a (l.filter pred) = countOcc a l := by
  intro l
  induction l with
  | nil => rfl
  | cons x t ih =>
      by_cases hx : pred x = true
      · rw [List.filter_cons_of_pos hx]
        simp [countOcc, ih]
      · rw [List.filter_cons_of_neg (by simpa using hx)]
        have hxa : ¬ (x = a) := fun hc => hx (hc ▸ ha)
        simp [countOcc, hxa, ih]

theorem countOcc_redundantOf {sr : List (String × SendRecv)} {p v : String}
    (h : (p, v) ∉ allReceived sr) :
    countOcc (p, v) (redundantOf sr) = countOcc (p, v) (allSent sr) :=
  countOcc_filter (by simpa using h) _

theorem pruneSR_removes_send {sr : List (String × SendRecv)}
    (hnd : (sr.map Prod.fst).Nodup) {p v : String}
    (hnr : (p, v) ∉ allReceived sr) :
    (p, v) ∉ allSent (pruneSRAll sr (redundantOf sr)) := by
  intro hmem
  have hnd' : ((pruneSRAll sr (redundantOf sr)).map Prod.fst).Nodup := by
    rw [pruneSRAll_keys]
    exact hnd
  have hpos : 0 < countOcc (p, v) (allSent (pruneSRAll sr (redundantOf sr))) :=
    countOcc_pos_iff.mpr hmem
  rw [countOcc_allSent_nodup hnd' p v] at hpos
  rw [pruneSRAll_send_zero (redundantOf sr) sr
    (by rw [countOcc_redundantOf hnr, countOcc_allSent_nodup hnd p v])] at hpos
  exact absurd hpos (by omega)

theorem setKeyFalse_keys (m : List (String × PyVal)) (var : String) :
    (setKeyFalse m var).map Prod.fst = m.map Prod.fst := by
  induction m with
  | nil => rfl
  | cons p t ih =>
      obtain ⟨k, x⟩ := p
      by_cases hk : k = var
      · simp [setKeyFalse, hk]
      · simp [setKeyFalse, hk, ih]

theorem setKeyFalse_dlookup_self {m : List (String × PyVal)} {var : String}
    (h : var ∈ m.map Prod.fst) :
    dlookup (setKeyFalse m var) var = Option.some (PyVal.vbool false) := by
  induction m with
  | nil => simp at h
  | cons p t ih =>
      obtain ⟨k, x⟩ := p
      by_cases hk : k = var
      · subst hk
        simp [setKeyFalse, dlookup]
      · simp only [List.map_cons, List.mem_cons] at h
        rcases h with h | h
        · exact absurd h.symm hk
        · simp only [setKeyFalse, if_neg hk, dlookup]
          exact ih h

theorem setKeyFalse_dlookup_ne {k var : String} (h : k ≠ var)
    (m : List (String × PyVal)) :
    dlookup (setKeyFalse m var) k = dlookup m k := by
  induction m with
  | nil => rfl
  | cons p t ih =>
      obtain ⟨a, x⟩ := p
      by_cases ha : a = var
      · subst ha
        have hak : ¬ (a = k) := fun hc => h hc.symm
        simp [setKeyFalse, dlookup, hak]
      · by_cases hak : a = k
        · subst hak
          simp [setKeyFalse, ha, dlookup]
        · simp [setKeyFalse, ha, dlookup, hak, ih]

theorem pruneNode_outputs_eq (nb : NodeB) (var : String) :
    (pruneNode nb var).outputs = nb.outputs.map (fun m => setKeyFalse m var) := rfl

theorem pruneNode_wio_eq (nb : NodeB) (var : String) :
    (pruneNode nb var).wrapper_io = nb.wrapper_io.map (fun m => setKeyFalse m var) := rfl

theorem pruneNode_method_eq (nb : NodeB) (var : String) :
    (pruneNode nb var).method = nb.method.map (fun mb =>
      { mb with moutputs := mb.moutputs.map (fun m => setKeyFalse m var) }) := rfl

theorem pruneNode_mout_eq (nb : NodeB) (var : String) :
    (pruneNode nb var).method.bind MethodB.moutputs =
      (nb.method.bind MethodB.moutputs).map (fun m => setKeyFalse m var) := by
  rw [pruneNode_method_eq]
  cases nb.method with
  | none => rfl
  | some mb => rfl

theorem pruneNode_fields (nb : NodeB) (var : String) :
    (pruneNode nb var).hasName = nb.hasName ∧
    (pruneNode nb var).hasLibrary = nb.hasLibrary ∧
    (pruneNode nb var).keysOK = nb.keysOK ∧
    (pruneNode nb var).inputs = nb.inputs ∧
    (pruneNode nb var).method.map MethodB.minputs = nb.method.map MethodB.minputs ∧
    (pruneNode nb var).method.map MethodB.hasMName = nb.method.map MethodB.hasMName ∧
    (pruneNode nb var).outputs.isSome = nb.outputs.isSome ∧
    (pruneNode nb var).wrapper_io.isSome = nb.wrapper_io.isSome := by
  refine ⟨rfl, rfl, rfl, rfl, ?_, ?_, ?_, ?_⟩
  · rw [pruneNode_method_eq]
    cases nb.method with
    | none => rfl
    | some m => rfl
  · rw [pruneNode_method_eq]
    cases nb.method with
    | none => rfl
    | some m => rfl
  · rw [pruneNode_outputs_eq]
    cases nb.outputs with
    | none => rfl
    | some m => rfl
  · rw [pruneNode_wio_eq]
    cases nb.wrapper_io with
    | none => rfl
    | some m => rfl

theorem mapFalseAt_map_self (m : Option (List (String × PyVal))) (v : String) :
    mapFalseAt (m.map (fun l => setKeyFalse l v)) v := by
  intro l hl hmem
  cases m with
  | none => simp at hl
  | some m0 =>
      injection hl with hl
      subst hl
      exact setKeyFalse_dlookup_self (by rwa [setKeyFalse_keys] at hmem)

theorem docEntryFalse_pruneNode_self (nb : NodeB) (v : String) :
    docEntryFalse (pruneNode nb v) v := by
  refine ⟨?_, ?_, ?_⟩
  · rw [pruneNode_outputs_eq]
    exact mapFalseAt_map_self nb.outputs v
  · show mapFalseAt ((pruneNode nb v).method.bind MethodB.moutputs) v
    rw [pruneNode_mout_eq]
    exact mapFalseAt_map_self _ v
  · rw [pruneNode_wio_eq]
    exact mapFalseAt_map_self nb.wrapper_io v

theorem mapFalseAt_setKeyFalse {m : Option (List (String × PyVal))} {v : String}
    (h : mapFalseAt m v) (w : String) :
    mapFalseAt (m.map (fun l => setKeyFalse l w)) v := by
  by_cases hw : w = v
  · subst hw
    exact mapFalseAt_map_self m w
  · intro l hl hmem
    cases m with
    | none => simp at hl
    | some m0 =>
        injection hl with hl
        subst hl
        rw [setKeyFalse_dlookup_ne (fun hc => hw hc.symm)]
        exact h m0 rfl (by rwa [setKeyFalse_keys] at hmem)

theorem docEntryFalse_pruneNode_stable {nb : NodeB} {v : String}
    (h : docEntryFalse nb v) (w : String) : docEntryFalse (pruneNode nb w) v := by
  obtain ⟨h1, h2, h3⟩ := h
  refine ⟨?_, ?_, ?_⟩
  · rw [pruneNode_outputs_eq]
    exact mapFalseAt_setKeyFalse h1 w
  · show mapFalseAt ((pruneNode nb w).method.bind MethodB.moutputs) v
    rw [pruneNode_mout_eq]
    exact mapFalseAt_setKeyFalse h2 w
  · rw [pruneNode_wio_eq]
    exact mapFalseAt_setKeyFalse h3 w

theorem updateDoc_dlookup_self (doc : List (String × NodeB)) (id var : String) :
    dlookup (updateDoc doc id var) id = (dlookup doc id).map (fun nb => pruneNode nb var) := by
  induction doc with
  | nil => rfl
  | cons p t ih =>
      obtain ⟨k, nb⟩ := p
      by_cases hk : k = id
      · subst hk
        simp [updateDoc, dlookup]
      · simp [updateDoc, hk, dlookup, ih]

theorem updateDoc_dlookup_ne {p id : String} (h : p ≠ id)
    (doc : List (String × NodeB)) (var : String) :
    dlookup (updateDoc doc id var) p = dlookup doc p := by
  induction doc with
  | nil => rfl
  | cons q t ih =>
      obtain ⟨k, nb⟩ := q
      by_cases hk : k = id
      · subst hk
        have hkp : ¬ (k = p) := fun hc => h hc.symm
        simp [updateDoc, dlookup, hkp]
      · by_cases hp : k = p
        · subst hp
          simp [updateDoc, hk, dlookup]
        · simp [updateDoc, hk, dlookup, hp, ih]

theorem prunesFor_cons_self (p w : String) (t : List (String × String)) :
    prunesFor p ((p, w) :: t) = w :: prunesFor p t := by
  simp [prunesFor]

theorem prunesFor_cons_ne {p id : String} (h : id ≠ p) (w : String)
    (t : List (String × String)) :
    prunesFor p ((id, w) :: t) = prunesFor p t := by
  simp [prunesFor, h]

theorem pruneDocAll_lookup :
    ∀ (red : List (String × String)) (doc : List (String × NodeB)) (p : String),
      dlookup (pruneDocAll doc red) p =
        (dlookup doc p).map (fun nb => applyPrunes nb (prunesFor p red)) := by
  intro red
  induction red with
  | nil =>
      intro doc p
      show dlookup doc p = _
      rw [show prunesFor p [] = [] from rfl]
      cases dlookup doc p with
      | none => rfl
      | some nb => rfl
  | cons r t ih =>
      intro doc p
      obtain ⟨id, w⟩ := r
      rw [pruneDocAll, ih]
      by_cases hid : id = p
      · subst hid
        rw [updateDoc_dlookup_self, prunesFor_cons_self]
        cases dlookup doc id with
        | none => rfl
        | some nb => rfl
      · rw [updateDoc_dlookup_ne (fun hc => hid hc.symm), prunesFor_cons_ne hid]

theorem applyPrunes_stable {nb : NodeB} {v : String} (h : docEntryFalse nb v) :
    ∀ (vars : List String), docEntryFalse (applyPrunes nb vars) v := by
  intro vars
  induction vars generalizing nb with
  | nil => exact h
  | cons w t ih => exact ih (docEntryFalse_pruneNode_stable h w)

theorem applyPrunes_false {v : String} :
    ∀ (vars : List String) (nb : NodeB), v ∈ vars → docEntryFalse (applyPrunes nb vars) v := by
  intro vars
  induction vars with
  | nil => intro nb h; simp at h
  | cons w t ih =>
      intro nb h
      by_cases hw : v ∈ t
      · exact ih (pruneNode nb w) hw
      · have hv : w = v := by
          rcases List.mem_cons.mp h with h | h
          · exact h.symm
          · exact absurd h hw
        subst hv
        exact applyPrunes_stable (docEntryFalse_pruneNode_self nb w) t

theorem applyPrunes_fields :
    ∀ (vars : List String) (nb : NodeB),
      (applyPrunes nb vars).hasName = nb.hasName ∧
      (applyPrunes nb vars).hasLibrary = nb.hasLibrary ∧
      (applyPrunes nb vars).keysOK = nb.keysOK ∧
      (applyPrunes nb vars).inputs = nb.inputs ∧
      (applyPrunes nb vars).method.map MethodB.minputs = nb.method.map MethodB.minputs ∧
      (applyPrunes nb vars).method.map MethodB.hasMName = nb.method.map MethodB.hasMName ∧
      (applyPrunes nb vars).outputs.isSome = nb.outputs.isSome ∧
      (applyPrunes nb vars).wrapper_io.isSome = nb.wrapper_io.isSome := by
  intro vars
  induction vars with
  | nil => intro nb; exact ⟨rfl, rfl, rfl, rfl, rfl, rfl, rfl, rfl⟩
  | cons w t ih =>
      intro nb
      have h1 := pruneNode_fields nb w
      have h2 := ih (pruneNode nb w)
      rw [applyPrunes]
      exact ⟨h2.1.trans h1.1, h2.2.1.trans h1.2.1, h2.2.2.1.trans h1.2.2.1,
        h2.2.2.2.1.trans h1.2.2.2.1, h2.2.2.2.2.1.trans h1.2.2.2.2.1,
        h2.2.2.2.2.2.1.trans h1.2.2.2.2.2.1,
        h2.2.2.2.2.2.2.1.trans h1.2.2.2.2.2.2.1,
        h2.2.2.2.2.2.2.2.trans h1.2.2.2.2.2.2.2⟩

theorem pruneNode_lookup_ne {k w : String} (h : k ≠ w) (nb : NodeB) :
    dlookup ((pruneNode nb w).outputs.getD []) k = dlookup (nb.outputs.getD []) k ∧
    dlookup (((pruneNode nb w).method.bind MethodB.moutputs).getD []) k =
      dlookup ((nb.method.bind MethodB.moutputs).getD []) k ∧
    dlookup ((pruneNode nb w).wrapper_io.getD []) k = dlookup (nb.wrapper_io.getD []) k := by
  refine ⟨?_, ?_, ?_⟩
  · rw [pruneNode_outputs_eq]
    cases nb.outputs with
    | none => rfl
    | some m => exact setKeyFalse_dlookup_ne h m
  · rw [pruneNode_mout_eq]
    cases nb.method.bind MethodB.moutputs with
    | none => rfl
    | some m => exact setKeyFalse_dlookup_ne h m
  · rw [pruneNode_wio_eq]
    cases nb.wrapper_io with
    | none => rfl
    | some m => exact setKeyFalse_dlookup_ne h m

theorem applyPrunes_lookup_notin {k : String} :
    ∀ (vars : List String) (nb : NodeB), k ∉ vars →
      dlookup ((applyPrunes nb vars).outputs.getD []) k = dlookup (nb.outputs.getD []) k ∧
      dlookup (((applyPrunes nb vars).method.bind MethodB.moutputs).getD []) k =
        dlookup ((nb.method.bind MethodB.moutputs).getD []) k ∧
      dlookup ((applyPrunes nb vars).wrapper_io.getD []) k =
        dlookup (nb.wrapper_io.getD []) k := by
  intro vars
  induction vars with
  | nil => intro nb _; exact ⟨rfl, rfl, rfl⟩
  | cons w t ih =>
      intro nb hk
      have hkw : k ≠ w := fun hc => hk (by simp [hc])
      have h1 := pruneNode_lookup_ne hkw nb
      have h2 := ih (pruneNode nb w) (fun hc => hk (by simp [hc]))
      rw [applyPrunes]
      exact ⟨h2.1.trans h1.1, h2.2.1.trans h1.2.1, h2.2.2.trans h1.2.2⟩

theorem mem_prunesFor {p v : String} {red : List (String × String)} :
    v ∈ prunesFor p red ↔ (p, v) ∈ red := by
  unfold prunesFor
  simp only [List.mem_map, List.mem_filter, decide_eq_true_eq]
  constructor
  · rintro ⟨⟨a, b⟩, ⟨hm, ha⟩, hb⟩
    simp only at ha hb
    subst ha
    subst hb
    exact hm
  · intro hm
    exact ⟨(p, v), ⟨hm, rfl⟩, rfl⟩

/-- C8 (amended): effect and frame of the dead-output pruning pass.  For every
document extracting to `sr` with pairwise-distinct node ids and every sent
pair `(p, v)` that no recv reference targets: the pair is removed from the
send lists while every recv list is untouched; afterwards node `p` maps the
key `v` (wherever present) to the boolean `False` in all three of `outputs`,
`method.outputs` and `wrapper_io` — OVERWRITING whatever value was stored
there, reference strings included, not merely flipping `True` entries; every
node survives with its other fields, its key sets, and the values of every
key that is not itself a redundant send of that node unchanged; and when
`make_graph` accepts the pruned structure, its edge list is exactly one edge
per surviving recv reference, none of which targets `(p, v)`. -/
theorem prune_effect
    {doc : List (String × NodeB)} {sr : List (String × SendRecv)} {p v : String}
    (_hex : extract doc = Except.ok sr)
    (hnd : (sr.map Prod.fst).Nodup)
    (hsent : (p, v) ∈ allSent sr)
    (hnr : (p, v) ∉ allReceived sr) :
    (p, v) ∉ allSent (pruneApply doc sr (redundantOf sr)).2 ∧
    allReceived (pruneApply doc sr (redundantOf sr)).2 = allReceived sr ∧
    (∀ nb, dlookup (pruneApply doc sr (redundantOf sr)).1 p = Option.some nb →
      docEntryFalse nb v) ∧
    (∀ q nb, dlookup doc q = Option.some nb →
      ∃ nb', dlookup (pruneApply doc sr (redundantOf sr)).1 q = Option.some nb' ∧
        nb'.hasName = nb.hasName ∧ nb'.hasLibrary = nb.hasLibrary ∧
        nb'.keysOK = nb.keysOK ∧ nb'.inputs = nb.inputs ∧
        nb'.method.map MethodB.minputs = nb.method.map MethodB.minputs ∧
        nb'.method.map MethodB.hasMName = nb.method.map MethodB.hasMName ∧
        nb'.outputs.isSome = nb.outputs.isSome ∧
        nb'.wrapper_io.isSome = nb.wrapper_io.isSome ∧
        (∀ k, (q, k) ∉ redundantOf sr →
          dlookup (nb'.outputs.getD []) k = dlookup (nb.outputs.getD []) k ∧
          dlookup ((nb'.method.bind MethodB.moutputs).getD []) k =
            dlookup ((nb.method.bind MethodB.moutputs).getD []) k ∧
          dlookup (nb'.wrapper_io.getD []) k = dlookup (nb.wrapper_io.getD []) k)) ∧
    (∀ t, make_graph (pruneApply doc sr (redundantOf sr)).2 = Except.ok t →
      t.1 = edgesOf (pruneApply doc sr (redundantOf sr)).2 ∧
      (p, v) ∉ allReceived (pruneApply doc sr (redundantOf sr)).2) := by
  have hred : (p, v) ∈ redundantOf sr := by
    unfold redundantOf
    exact List.mem_filter.mpr ⟨hsent, by simpa using hnr⟩
  refine ⟨?_, ?_, ?_, ?_, ?_⟩
  · exact pruneSR_removes_send hnd hnr
  · exact allReceived_pruneSRAll (redundantOf sr) sr
  · intro nb hnb
    rw [show (pruneApply doc sr (redundantOf sr)).1 = pruneDocAll doc (redundantOf sr)
      from rfl, pruneDocAll_lookup] at hnb
    cases hdp : dlookup doc p with
    | none => rw [hdp] at hnb; simp at hnb
    | some nb0 =>
        rw [hdp] at hnb
        injection hnb with hnb
        subst hnb
        exact applyPrunes_false _ nb0 (mem_prunesFor.mpr hred)
  · intro q nb hq
    have hf := applyPrunes_fields (prunesFor q (redundantOf sr)) nb
    refine ⟨applyPrunes nb (prunesFor q (redundantOf sr)), ?_, hf.1, hf.2.1,
      hf.2.2.1, hf.2.2.2.1, hf.2.2.2.2.1, hf.2.2.2.2.2.1, hf.2.2.2.2.2.2.1,
      hf.2.2.2.2.2.2.2, ?_⟩
    · rw [show (pruneApply doc sr (redundantOf sr)).1 = pruneDocAll doc (redundantOf sr)
        from rfl, pruneDocAll_lookup, hq]
      rfl
    · intro k hk
      exact applyPrunes_lookup_notin _ nb (fun hm => hk (mem_prunesFor.mp hm))
  · intro t ht
    refine ⟨(make_graph_ok_spec _ t ht).1, ?_⟩
    rw [show (pruneApply doc sr (redundantOf sr)).2 = pruneSRAll sr (redundantOf sr)
      from rfl, allReceived_pruneSRAll]
    exact hnr

/-- Witness for C8 (amended): in `pruneFrameDoc` the pair `(Q, u)` is sent
and never received; the pass removes it from the send lists, makes node `Q`
map `u` to `False`, and keeps every node, field and non-redundant key
intact. -/
theorem prune_effect_witness :
    ("Q", "u") ∉
      allSent (pruneApply pruneFrameDoc pruneFrameSR (redundantOf pruneFrameSR)).2 ∧
    allReceived (pruneApply pruneFrameDoc pruneFrameSR (redundantOf pruneFrameSR)).2 =
      allReceived pruneFrameSR ∧
    (∀ nb, dlookup (pruneApply pruneFrameDoc pruneFrameSR (redundantOf pruneFrameSR)).1 "Q" =
        Option.some nb → docEntryFalse nb "u") ∧
    (∀ q nb, dlookup pruneFrameDoc q = Option.some nb →
      ∃ nb', dlookup (pruneApply pruneFrameDoc pruneFrameSR (redundantOf pruneFrameSR)).1 q =
          Option.some nb' ∧
        nb'.hasName = nb.hasName ∧ nb'.hasLibrary = nb.hasLibrary ∧
        nb'.keysOK = nb.keysOK ∧ nb'.inputs = nb.inputs ∧
        nb'.method.map MethodB.minputs = nb.method.map MethodB.minputs ∧
        nb'.method.map MethodB.hasMName = nb.method.map MethodB.hasMName ∧
        nb'.outputs.isSome = nb.outputs.isSome ∧
        nb'.wrapper_io.isSome = nb.wrapper_io.isSome ∧
        (∀ k, (q, k) ∉ redundantOf pruneFrameSR →
          dlookup (nb'.outputs.getD []) k = dlookup (nb.outputs.getD []) k ∧
          dlookup ((nb'.method.bind MethodB.moutputs).getD []) k =
            dlookup ((nb.method.bind MethodB.moutputs).getD []) k ∧
          dlookup (nb'.wrapper_io.getD []) k = dlookup (nb.wrapper_io.getD []) k)) ∧
    (∀ t, make_graph (pruneApply pruneFrameDoc pruneFrameSR (redundantOf pruneFrameSR)).2 =
        Except.ok t →
      t.1 = edgesOf (pruneApply pruneFrameDoc pruneFrameSR (redundantOf pruneFrameSR)).2 ∧
      ("Q", "u") ∉
        allReceived (pruneApply pruneFrameDoc pruneFrameSR (redundantOf pruneFrameSR)).2) :=
  prune_effect (by decide) (by decide) (by decide) (by decide)

/-- C8 counterexample: `Parser.serialize` does NOT mutate the document only
by flipping redundant `True` entries — and hence does not leave "every other
key and value" unchanged.  In `pruneFrameDoc` the key `u` of `Q.wrapper_io`
holds the reference STRING `"@P@w"` (not a boolean `True`); because `(Q, u)`
is a redundant send, the `if var in wrapper_io: wrapper_io[var] = False`
line of the pruning loop overwrites that string, and the document returned
by a successful `serialize` run shows `u ↦ False` where the input had
`u ↦ "@P@w"`. -/
theorem prune_effect_counterexample :
    (serialize pruneFrameDoc).toOption.map
        (fun r => r.1.map (fun q => (q.1, q.2.wrapper_io))) =
      Option.some [("P", Option.none),
        ("Q", Option.some [("u", PyVal.vbool false)])] ∧
    (dlookup pruneFrameDoc "Q").map (fun nb => nb.wrapper_io) =
      Option.some (Option.some [("u", PyVal.vstr "@P@w")]) ∧
    PyVal.vstr "@P@w" ≠ PyVal.vbool true :=
  ⟨rfl, rfl, by decide⟩

end ChemEngine
